import Mathlib

/-!
A shallow embedding of `polypyus/graph.py`: the fragment-trie (`Graph`/`Edge`),
insertion with common-prefix splitting, the finalization pass, the sequential
scanning loop and the queue protocol of the parallel driver.

Python `defaultdict(list)` objects are modelled as insertion-ordered
association lists; reading a missing key stores an empty entry, exactly as
`defaultdict.__getitem__` does.  Stateful methods become functions returning
the updated graph.  Loops are modelled with an explicit fuel parameter that is
ample for the automata considered here; exhausting it ends the loop quietly.
-/

namespace Polypyus

/-- Modelled from the spec: `MatchFragment` (from `polypyus.tools`, a module
that is not part of the sources given here) is an ordered sequence of bytes
plus an equal-length sequence of wildcard flags. -/
structure Fragment where
  template : List Nat
  fuzziness : List Bool
deriving DecidableEq

/-- Modelled from the spec: `len(fragment)` is the number of byte positions. -/
def Fragment.size (f : Fragment) : Nat := f.template.length

/-- Modelled from the spec: `fragment.fuzziness[0]`, the leading wildcard flag. -/
def Fragment.fuzzAt0 (f : Fragment) : Bool := f.fuzziness.headD false

/-- Modelled from the spec: `fragment.template[0]`, the leading literal byte. -/
def Fragment.head0 (f : Fragment) : Nat := f.template.headD 0

/-- Modelled from the spec: wildcard-aware equality of a fragment against a
raw byte slice; lengths must agree and every non-wildcard position must match
exactly. -/
def Fragment.matchesBytes (f : Fragment) (bs : List Nat) : Bool :=
  bs.length == f.size &&
    (List.range f.size).all fun i =>
      f.fuzziness.getD i false || (f.template.getD i 0 == bs.getD i 0)

/-- Auxiliary recursion for the longest common prefix of two fragments. -/
def lcpAux : List Nat → List Bool → List Nat → List Bool → Nat
  | t1 :: ts1, z1 :: zs1, t2 :: ts2, z2 :: zs2 =>
      if z1 = z2 ∧ (z1 = true ∨ t1 = t2) then lcpAux ts1 zs1 ts2 zs2 + 1 else 0
  | _, _, _, _ => 0

/-- Modelled from the spec: the longest common prefix length of two fragments
(positions agree when their wildcard flags agree and, for literal positions,
their bytes agree). -/
def Fragment.commonPrefixLen (f g : Fragment) : Nat :=
  lcpAux f.template f.fuzziness g.template g.fuzziness

/-- Modelled from the spec: `split_at` leaves the prefix in place and returns
the suffix; here both parts are returned. -/
def Fragment.splitAtPos (f : Fragment) (n : Nat) : Fragment × Fragment :=
  (⟨f.template.take n, f.fuzziness.take n⟩, ⟨f.template.drop n, f.fuzziness.drop n⟩)

/-- Modelled from the spec: `drop_before` removes the first `n` positions. -/
def Fragment.dropBefore (f : Fragment) (n : Nat) : Fragment :=
  ⟨f.template.drop n, f.fuzziness.drop n⟩

/-- Modelled from the spec: `fuzz_ratio()`, the fraction of wildcard bytes. -/
def Fragment.fuzzFrac (f : Fragment) : ℚ :=
  if f.size = 0 then 0 else (f.fuzziness.countP id : ℚ) / (f.size : ℚ)

/-- A fully literal fragment over the given bytes (no wildcard positions). -/
def litFrag (bs : List Nat) : Fragment := ⟨bs, List.replicate bs.length false⟩

/-- `PathClassification` from `graph.py`. -/
inductive PathClassification where
  | DISJUNCT | EQUAL | PART | BRANCH
deriving DecidableEq

/-- `Edge` from `graph.py`: destination node, fragment, cached length,
match size and the mutable sort weight. -/
structure Edge where
  dst : Nat
  path : Fragment
  len : Nat
  match_size : Nat
  weight : ℚ
deriving DecidableEq

/-- `Edge.__init__`: `len` is the fragment length, `match_size` defaults to
it, and `weight` starts out as `match_size`. -/
def Edge.make (dst : Nat) (path : Fragment) (msize : Option Nat) : Edge :=
  let l := path.size
  let ms := msize.getD l
  ⟨dst, path, l, ms, (ms : ℚ)⟩

/-- `Edge.matches`: wildcard-aware comparison against a byte slice. -/
def Edge.matchesSlice (e : Edge) (bs : List Nat) : Bool := e.path.matchesBytes bs

/-- `Edge.classify_path`: relation of this edge's fragment to `p`, together
with the common prefix length.  Note the comparison is against the cached
`len` field, as in the source. -/
def Edge.classify (e : Edge) (p : Fragment) : PathClassification × Nat :=
  let lp := p.size
  let lpre := e.path.commonPrefixLen p
  if lpre = e.len then
    if lp = e.len then (PathClassification.EQUAL, lpre)
    else (PathClassification.PART, lpre)
  else if lpre = 0 then (PathClassification.DISJUNCT, lpre)
  else (PathClassification.BRANCH, lpre)

/-! ### `defaultdict(list)` as an insertion-ordered association list -/

/-- Plain read of a bin map (no storing). -/
def binGet : List (Nat × List Edge) → Nat → Option (List Edge)
  | [], _ => none
  | kv :: rest, k => if kv.1 = k then some kv.2 else binGet rest k

/-- Read with default, the value `adjacency[node][k]` evaluates to. -/
def binGetD (m : List (Nat × List Edge)) (k : Nat) : List Edge :=
  (binGet m k).getD []

/-- `defaultdict.__getitem__`: reading a missing key stores `[]` under it. -/
def binGetM (m : List (Nat × List Edge)) (k : Nat) : List Edge × List (Nat × List Edge) :=
  match binGet m k with
  | some v => (v, m)
  | none => ([], m ++ [(k, [])])

/-- `adjacency[node][k].append(e)`: materialize the key and push at the end. -/
def binAppendEdge (m : List (Nat × List Edge)) (k : Nat) (e : Edge) :
    List (Nat × List Edge) :=
  match m with
  | [] => [(k, [e])]
  | kv :: rest =>
      if kv.1 = k then (kv.1, kv.2 ++ [e]) :: rest
      else kv :: binAppendEdge rest k e

/-- Plain read of the payload map. -/
def dataGet {α : Type} : List (Nat × List α) → Nat → Option (List α)
  | [], _ => none
  | kv :: rest, k => if kv.1 = k then some kv.2 else dataGet rest k

/-- Read with default of the payload map. -/
def dataGetD {α : Type} (m : List (Nat × List α)) (k : Nat) : List α :=
  (dataGet m k).getD []

/-- `defaultdict.__getitem__` on the payload map. -/
def dataGetM {α : Type} (m : List (Nat × List α)) (k : Nat) :
    List α × List (Nat × List α) :=
  match dataGet m k with
  | some v => (v, m)
  | none => ([], m ++ [(k, [])])

/-- `data[k].append(x)`. -/
def dataAppend {α : Type} (m : List (Nat × List α)) (k : Nat) (x : α) :
    List (Nat × List α) :=
  match m with
  | [] => [(k, [x])]
  | kv :: rest =>
      if kv.1 = k then (kv.1, kv.2 ++ [x]) :: rest
      else kv :: dataAppend rest k x

/-- `Graph` from `graph.py`.  Nodes are integer indices; `adjacency` and
`fuzzy_starts` are indexed by node. -/
structure Graph (α : Type) where
  data : List (Nat × List α)
  adjacency : List (List (Nat × List Edge))
  fuzzy_starts : List (List Edge)
  longest_path : Nat
  bin_count : Nat
  nodes : Nat
  finalized : Bool
deriving DecidableEq

/-- `Graph.__init__` with the default `bin_count=256`. -/
def Graph.emptyG (α : Type) : Graph α :=
  ⟨[], [[]], [[]], 0, 256, 1, false⟩

/-- `Graph._to_bin`. -/
def Graph.toBin {α : Type} (g : Graph α) (b : Nat) : Nat := b % g.bin_count

/-- The bin map of a node (Python list indexing `self.adjacency[node]`). -/
def adjAt {α : Type} (g : Graph α) (n : Nat) : List (Nat × List Edge) :=
  g.adjacency.getD n []

/-- Replace the bin map of a node. -/
def setAdjAt {α : Type} (g : Graph α) (n : Nat) (m : List (Nat × List Edge)) :
    Graph α :=
  { g with adjacency := g.adjacency.set n m }

/-- The fuzzy-start list of a node. -/
def fuzzyAt {α : Type} (g : Graph α) (n : Nat) : List Edge :=
  g.fuzzy_starts.getD n []

/-- `Graph._new_node`: append fresh adjacency/fuzzy slots, optionally attach
a payload to the new node, and bump the node counter. -/
def Graph.newNode {α : Type} (g : Graph α) (d : Option α) : Graph α :=
  let dta := match d with
    | some x => dataAppend g.data g.nodes x
    | none => g.data
  { g with
    data := dta
    adjacency := g.adjacency ++ [[]]
    fuzzy_starts := g.fuzzy_starts ++ [[]]
    nodes := g.nodes + 1 }

/-- `Graph._add_edge`: a fuzzy-leading fragment goes to the fuzzy-start list,
otherwise into the bin of its first byte. -/
def Graph.addEdge {α : Type} (g : Graph α) (src dst : Nat) (path : Fragment)
    (msize : Option Nat) : Graph α :=
  let e := Edge.make dst path msize
  if path.fuzzAt0 then
    { g with fuzzy_starts := g.fuzzy_starts.set src (fuzzyAt g src ++ [e]) }
  else
    setAdjAt g src (binAppendEdge (adjAt g src) (g.toBin path.head0) e)

/-- Location of an edge inside the graph structure: either at index `i` of
bin `b` of a node's bin map, or at index `i` of its fuzzy-start list. -/
inductive EdgeLoc where
  | exact : Nat → Nat → Nat → EdgeLoc
  | fuzzy : Nat → Nat → EdgeLoc
deriving DecidableEq

/-- Read the edge stored at a location. -/
def getEdgeAt {α : Type} (g : Graph α) : EdgeLoc → Option Edge
  | EdgeLoc.exact n b i => (binGetD (adjAt g n) b)[i]?
  | EdgeLoc.fuzzy n i => (fuzzyAt g n)[i]?

/-- Overwrite the edge stored at a location. -/
def setEdgeAt {α : Type} (g : Graph α) (loc : EdgeLoc) (e : Edge) : Graph α :=
  match loc with
  | EdgeLoc.exact n b i =>
      setAdjAt g n ((adjAt g n).map fun kv =>
        if kv.1 = b then (kv.1, kv.2.set i e) else kv)
  | EdgeLoc.fuzzy n i =>
      { g with fuzzy_starts := g.fuzzy_starts.set n ((fuzzyAt g n).set i e) }

/-- `Graph._split_edge` on the edge `e` stored at `loc`: the kept prefix edge
keeps its slot but now has length `at_`, points at a fresh intermediate node
and has its `match_size` reduced by `at_`; the new tail edge goes from the
intermediate node to the old destination carrying the suffix fragment and the
unreduced `match_size`. -/
def Graph.splitEdge {α : Type} (g : Graph α) (loc : EdgeLoc) (e : Edge)
    (at_ : Nat) : Graph α :=
  let pr := e.path.splitAtPos at_
  let g1 := g.newNode none
  let g2 := g1.addEdge (g1.nodes - 1) e.dst pr.2 (some e.match_size)
  setEdgeAt g2 loc
    { e with path := pr.1, len := at_, dst := g1.nodes - 1,
             match_size := e.match_size - at_ }

/-- The `for edge in edges` scan of `Graph.insert`: the first edge whose
classification is not `DISJUNCT` decides the outcome. -/
def findCand (edges : List Edge) (p : Fragment) :
    Option (Nat × Edge × PathClassification × Nat) :=
  match edges with
  | [] => none
  | e :: rest =>
      let c := e.classify p
      if c.1 = PathClassification.DISJUNCT then
        (findCand rest p).map fun r => (r.1 + 1, r.2)
      else some (0, e, c)

/-- The body of `Graph.insert`'s `while len(path) > 0` loop.  `msize` is the
length of the originally inserted fragment, `node` the current node. -/
def insertLoop {α : Type} : Nat → Graph α → Fragment → α → Nat → Nat →
    Option Bool × Graph α
  | 0, g, _, _, _, _ => (none, g)
  | fuel + 1, g, path, d, msize, node =>
    if path.size = 0 then (none, g)
    else
      let em :=
        if path.fuzzAt0 then (fuzzyAt g node, g)
        else
          match binGet (adjAt g node) (g.toBin path.head0) with
          | some v => (v, g)
          | none =>
              ([], setAdjAt g node
                ((adjAt g node) ++ [(g.toBin path.head0, [])]))
      let g := em.2
      match findCand em.1 path with
      | some (_, e, PathClassification.PART, pl) =>
          insertLoop fuel g (path.dropBefore pl) d msize e.dst
      | some (_, e, PathClassification.EQUAL, _) =>
          (some false, { g with data := dataAppend g.data e.dst d })
      | some (i, e, PathClassification.BRANCH, pl) =>
          let loc :=
            if path.fuzzAt0 then EdgeLoc.fuzzy node i
            else EdgeLoc.exact node (g.toBin path.head0) i
          let g := g.splitEdge loc e pl
          let path := path.dropBefore pl
          if path.size > 0 then
            let g := g.addEdge (g.nodes - 1) g.nodes path (some msize)
            (some true, g.newNode (some d))
          else
            (some true, { g with data := dataAppend g.data (g.nodes - 1) d })
      | some (_, _, PathClassification.DISJUNCT, _) => (none, g)
      | none =>
          let g := g.addEdge node g.nodes path (some msize)
          (some true, g.newNode (some d))

/-- `Graph.insert`: clears the `finalized` flag, then runs the loop from the
root.  Returns Python's `None` (no boolean) for an empty fragment. -/
def Graph.insertFrag {α : Type} (g : Graph α) (path : Fragment) (d : α) :
    Option Bool × Graph α :=
  insertLoop (path.size + 1) { g with finalized := false } path d path.size 0

/-! ### Finalization (`finalize`, weight passes, stable sorting) -/

/-- Stable insertion into a sorted list: `x` goes before the first element
`y` with `le x y`; on ties the earlier element stays first, matching the
stability guarantee of Python's `sorted`. -/
def insSorted (le : Edge → Edge → Bool) : Edge → List Edge → List Edge
  | x, [] => [x]
  | x, y :: ys => if le x y then x :: y :: ys else y :: insSorted le x ys

/-- Stable sort modelling Python's `sorted` (any two stable sorts with the
same comparison agree, so insertion sort is a faithful model of timsort). -/
def stableSort (le : Edge → Edge → Bool) : List Edge → List Edge
  | [] => []
  | x :: xs => insSorted le x (stableSort le xs)

/-- `weighted_mean` from `Graph._get_mean_fuzziness`. -/
def weightedMean (rs : List ℚ) (cs : List Nat) : ℚ × Nat :=
  let num := cs.sum
  if num = 0 then (0, 0)
  else (((rs.zip cs).map fun rc => rc.1 * (rc.2 : ℚ)).sum / (num : ℚ), num)

/-- `Graph.edges_at` with the location of every edge: bins in dict insertion
order, each bin list in order, then the fuzzy-start list. -/
def edgeLocsAt {α : Type} (g : Graph α) (n : Nat) : List (EdgeLoc × Edge) :=
  ((adjAt g n).flatMap fun kv =>
    kv.2.enum.map fun ie => (EdgeLoc.exact n kv.1 ie.1, ie.2)) ++
  (fuzzyAt g n).enum.map fun ie => (EdgeLoc.fuzzy n ie.1, ie.2)

/-- `Graph._get_mean_fuzziness`: bottom-up length-weighted mean wildcard
ratio; stores each edge's ratio in its `weight` field. -/
def getMeanFuzz {α : Type} : Nat → Graph α → Nat → (ℚ × Nat) × Graph α
  | 0, g, _ => ((0, 0), g)
  | fuel + 1, g, n =>
    let res := (edgeLocsAt g n).foldl
      (fun acc le =>
        let tr := getMeanFuzz fuel acc.2.2 le.2.dst
        let rc := weightedMean [le.2.path.fuzzFrac, tr.1.1] [le.2.path.size, tr.1.2]
        let g2 := setEdgeAt tr.2 le.1 { le.2 with weight := rc.1 }
        (acc.1 ++ [rc.1], acc.2.1 ++ [rc.2], g2))
      ([], [], g)
    (weightedMean res.1 res.2.1, res.2.2)

/-- `Graph._get_max_match_size`: bottom-up maximal reachable `match_size`;
stores each edge's maximum in its `weight` field. -/
def getMaxMS {α : Type} : Nat → Graph α → Nat → Nat × Graph α
  | 0, g, _ => (0, g)
  | fuel + 1, g, n =>
    (edgeLocsAt g n).foldl
      (fun acc le =>
        let sub := getMaxMS fuel acc.2 le.2.dst
        let w := max sub.1 le.2.match_size
        let g2 := setEdgeAt sub.2 le.1 { le.2 with weight := (w : ℚ) }
        (max w acc.1, g2))
      (0, g)

/-- `Graph._sort_edges_by_weight`: every fuzzy-start list and every bin list
is stably sorted by weight, descending when `rev` is set. -/
def sortEdgesByWeight {α : Type} (g : Graph α) (rev : Bool) : Graph α :=
  let le : Edge → Edge → Bool := fun a b =>
    if rev then decide (b.weight ≤ a.weight) else decide (a.weight ≤ b.weight)
  { g with
    fuzzy_starts := g.fuzzy_starts.map (stableSort le)
    adjacency := g.adjacency.map fun m => m.map fun kv => (kv.1, stableSort le kv.2) }

/-- `Graph.finalize`: guarded by the `finalized` flag; fuzziness pass, sort
descending, match-size pass recording `longest_path`, sort ascending. -/
def Graph.finalize {α : Type} (g : Graph α) : Graph α :=
  if g.finalized then g
  else
    let g1 := (getMeanFuzz (g.nodes + 1) g 0).2
    let g2 := sortEdgesByWeight g1 true
    let r := getMaxMS (g2.nodes + 1) g2 0
    let g3 := sortEdgesByWeight { r.2 with longest_path := r.1 } false
    { g3 with finalized := true }

/-! ### The sequential scanner (`Graph.match`) -/

/-- Line 275 of the source: `pos += (-pos - offset) % align`, with Python's
nonnegative `%` for a positive modulus. -/
def realignPos (pos offset align : Nat) : Nat :=
  pos + (((-(pos : ℤ) - (offset : ℤ)) % (align : ℤ)).toNat)

/-- One intermediate candidate: payloads, match size, end position
(without the base offset). -/
abbrev Inter (α : Type) := Option (List α × Nat × Nat)

/-- Outcome of handling one popped stack entry. -/
inductive StepRes (α : Type) where
  | brk : List α → Nat → Nat → Graph α → StepRes α
  | cont : List (Nat × Edge) → Inter α → Graph α → StepRes α
deriving DecidableEq

/-- The `old_size >= edge.match_size` rejection test of the scanner: true
exactly when an intermediate candidate is recorded and its size is at least
the size of the newly reached terminus. -/
def interRejects {α : Type} : Inter α → Nat → Bool
  | some i, ms => ms ≤ i.2.1
  | none, _ => false

/-- The body of the inner `while edge_stack` loop of `Graph.match`, for one
popped entry `(p, e)`.  `brk` is the immediate-leaf yield (the Python
`break`); `cont` carries the new stack, intermediate candidate and graph.
When the destination terminus is rejected (`interRejects`), the Python
`continue` skips the stack extension; otherwise the intermediate candidate is
replaced and, whenever the next byte is in range, the destination's exact-bin
and fuzzy-start edges are pushed. -/
def innerStep {α : Type} (g : Graph α) (target : List Nat) (p : Nat) (e : Edge)
    (rest : List (Nat × Edge)) (inter : Inter α) : StepRes α :=
  if e.matchesSlice ((target.drop p).take e.len) then
    let dm := dataGetM g.data e.dst
    let g1 := { g with data := dm.2 }
    let proceed := fun (inter2 : Inter α) =>
      match target[p + e.len]? with
      | none => StepRes.cont rest inter2 g1
      | some b =>
        let am := binGetM (adjAt g1 e.dst) (g1.toBin b)
        let g2 := setAdjAt g1 e.dst am.2
        let pushes := ((am.1 ++ fuzzyAt g2 e.dst).map fun t => (p + e.len, t)).reverse
        StepRes.cont (pushes ++ rest) inter2 g2
    if dm.1.isEmpty then proceed inter
    else
      if (adjAt g1 e.dst).isEmpty ∧ (fuzzyAt g1 e.dst).isEmpty then
        StepRes.brk dm.1 e.match_size (p + e.len) g1
      else
        if interRejects inter e.match_size then StepRes.cont rest inter g1
        else proceed (some (dm.1, e.match_size, p + e.len))
  else StepRes.cont rest inter g

/-- The inner `while edge_stack` loop.  The stack is kept top-first (Python
appends and pops at the end of its list).  Returns the leaf yield if the loop
ended with `break`, the final intermediate candidate, and the graph. -/
def innerLoop {α : Type} : Nat → Graph α → List Nat → List (Nat × Edge) →
    Inter α → Option (List α × Nat × Nat) × Inter α × Graph α
  | 0, g, _, _, inter => (none, inter, g)
  | _ + 1, g, _, [], inter => (none, inter, g)
  | fuel + 1, g, target, (p, e) :: rest, inter =>
    match innerStep g target p e rest inter with
    | StepRes.brk d ms pe g2 => (some (d, ms, pe), inter, g2)
    | StepRes.cont st i2 g2 => innerLoop fuel g2 target st i2

/-- Fuel for the inner loop; ample for the small automata considered here. -/
def innerFuelFor {α : Type} (g : Graph α) (target : List Nat) : Nat :=
  (target.length + 2) * (g.nodes + 2)

/-- One iteration of the outer `while pos < end_pos` loop of `Graph.match`
for the byte `b` at the cursor: seed the exploration stack from the root's
exact bin and fuzzy-start edges, run the inner loop, and return the yields of
this iteration, the next (realigned) cursor position, and the graph. -/
def matchStep {α : Type} (g : Graph α) (target : List Nat)
    (offset align pos b : Nat) :
    List (List α × Nat × Nat) × Nat × Graph α :=
  let rm := binGetM (adjAt g 0) (g.toBin b)
  let g1 := setAdjAt g 0 rm.2
  let stack := ((rm.1.map fun e => (pos, e)) ++
    ((fuzzyAt g1 0).map fun e => (pos, e))).reverse
  match innerLoop (innerFuelFor g1 target) g1 target stack none with
  | (some r, _, g2) =>
      ([(r.1, r.2.1, r.2.2 + offset)], realignPos r.2.2 offset align, g2)
  | (none, some r, g2) =>
      ([(r.1, r.2.1, r.2.2 + offset)], realignPos r.2.2 offset align, g2)
  | (none, none, g2) => ([], realignPos (pos + 1) offset align, g2)

/-- The outer `while pos < end_pos` loop of `Graph.match`.  Returns the
yielded results (end offsets include the base offset), the list of attempted
cursor positions, and the final graph.  The only way to get `none` is the
unguarded byte read `target[pos]` at the top of the loop body. -/
def matchLoop {α : Type} : Nat → Graph α → List Nat → Nat → Nat → Nat →
    Option (List (List α × Nat × Nat) × List Nat × Graph α)
  | 0, g, _, _, _, _ => some ([], [], g)
  | fuel + 1, g, target, offset, align, pos =>
    if pos < target.length then
      match target[pos]? with
      | none => none
      | some b =>
        let st := matchStep g target offset align pos b
        (matchLoop fuel st.2.2 target offset align st.2.1).map fun acc =>
          (st.1 ++ acc.1, pos :: acc.2.1, acc.2.2)
    else some ([], [], g)

/-- `Graph.match`: force finalization, then scan from position 0. -/
def Graph.matchRun {α : Type} (g : Graph α) (target : List Nat)
    (offset align : Nat) :
    Option (List (List α × Nat × Nat) × List Nat × Graph α) :=
  let g1 := g.finalize
  matchLoop (target.length + 1) g1 target offset align 0

/-- The list of matches yielded by a scan. -/
def matchResults {α : Type} (g : Graph α) (target : List Nat)
    (offset align : Nat) : List (List α × Nat × Nat) :=
  ((g.matchRun target offset align).map fun x => x.1).getD []

/-! ### The queue protocol of the parallel driver -/

/-- An item on the results queue: `none` is the completion sentinel that
`yield_matches_to_queue` puts after the matches of one slice. -/
abbrev QItem (α : Type) := Option (List α × Nat × Nat)

/-- `yield_matches_to_queue`: the sequence of puts made for one slice —
every match, then exactly one sentinel. -/
def yieldPuts {α : Type} (g : Graph α) (target : List Nat)
    (offset align : Nat) : List (QItem α) :=
  (matchResults g target offset align).map some ++ [none]

/-- The bytes of one half-open slice of the target binary. -/
def sliceBytes (binary : List Nat) (st en : Nat) : List Nat :=
  (binary.drop st).take (en - st)

/-- `worker`: pulls jobs (slices) until the job queue is empty and runs
`yield_matches_to_queue` for each, so the queue receives the concatenation of
the per-slice put sequences. -/
def workerPuts {α : Type} (g : Graph α) (binary : List Nat)
    (jobs : List (Nat × Nat)) (align : Nat) : List (QItem α) :=
  jobs.flatMap fun j => yieldPuts g (sliceBytes binary j.1 j.2) j.1 align

/-- The number of completion sentinels in a put sequence. -/
def sentinelCount {α : Type} (l : List (QItem α)) : Nat :=
  l.countP fun x => x.isNone

/-- The merge loop of `parallel_prepartioned_graph_match`: `while done <
work` consume the results queue, counting sentinels and yielding matches;
`work` is the number of slices.  Returns the yielded matches and the part of
the queue left unconsumed when the loop exits. -/
def mergeLoop {α : Type} (work : Nat) : Nat → List (QItem α) →
    List (List α × Nat × Nat) × List (QItem α)
  | _, [] => ([], [])
  | done, q :: rest =>
    if work ≤ done then ([], q :: rest)
    else
      match q with
      | none => mergeLoop work (done + 1) rest
      | some m =>
        let r := mergeLoop work done rest
        (m :: r.1, r.2)

/-! ### Helper lemmas -/

/-- A graph whose `finalized` flag is set is returned unchanged. -/
theorem finalize_of_finalized {α : Type} (g : Graph α) (h : g.finalized = true) :
    g.finalize = g := by
  simp [Graph.finalize, h]

/-- `finalize` always sets the `finalized` flag. -/
theorem finalized_finalize {α : Type} (g : Graph α) :
    (g.finalize).finalized = true := by
  by_cases h : g.finalized
  · rw [finalize_of_finalized g h]; exact h
  · simp [Graph.finalize, h]

/-! ### C8: `finalize` is idempotent -/

/-- C8: calling `finalize` twice in succession leaves exactly the same graph
— in particular the same edge ordering in every exact-bin and fuzzy-start
list and the same `longest_path` — as calling it once (the second call is
cut off by the `finalized` guard). -/
theorem c8_finalize_idempotent {α : Type} (g : Graph α) :
    (g.finalize).finalize = g.finalize :=
  finalize_of_finalized _ (finalized_finalize g)

/-! ### C10: inserting an empty fragment -/

/-- C10: for a fragment of length 0, `insert` returns Python's `None`
(no boolean), creates no node, edge or terminus and discards the payload;
the only effect is that the `finalized` flag is cleared. -/
theorem c10_insert_empty {α : Type} (g : Graph α) (f : Fragment) (d : α)
    (h : f.size = 0) :
    g.insertFrag f d = (none, { g with finalized := false }) := by
  simp [Graph.insertFrag, h, insertLoop]

/-- Witness for C10 at a concrete empty fragment. -/
theorem c10_insert_empty_witness :
    (Fragment.mk [] []).size = 0 ∧
    (Graph.emptyG Nat).insertFrag (Fragment.mk [] []) 5 =
      (none, { Graph.emptyG Nat with finalized := false }) :=
  ⟨rfl, c10_insert_empty (Graph.emptyG Nat) (Fragment.mk [] []) 5 rfl⟩

/-! ### Generic list/assoc-map lemmas used below -/

theorem getD_append_self {β : Type} (l : List β) (x d : β) :
    (l ++ [x]).getD l.length d = x := by
  simp

theorem getD_append_lt {β : Type} (l : List β) (x d : β) (n : Nat)
    (h : n < l.length) : (l ++ [x]).getD n d = l.getD n d := by
  simp [List.getElem?_append_left h]

theorem getD_set_self {β : Type} (l : List β) (n : Nat) (x d : β)
    (h : n < l.length) : (l.set n x).getD n d = x := by
  simp [List.getElem?_set_self', List.getElem?_eq_getElem h]

theorem getD_set_ne {β : Type} (l : List β) (n n2 : Nat) (x d : β)
    (h : n ≠ n2) : (l.set n x).getD n2 d = l.getD n2 d := by
  simp [List.getElem?_set_ne h]

theorem binGet_mapSet_self (m : List (Nat × List Edge)) (b i : Nat) (x : Edge) :
    binGet (m.map fun kv => if kv.1 = b then (kv.1, kv.2.set i x) else kv) b =
      (binGet m b).map fun v => v.set i x := by
  induction m with
  | nil => rfl
  | cons kv rest ih =>
      by_cases h : kv.1 = b
      · simp [binGet, h]
      · simpa [binGet, h] using ih

/-- The node an edge location refers to. -/
def locNode : EdgeLoc → Nat
  | EdgeLoc.exact n _ _ => n
  | EdgeLoc.fuzzy n _ => n

/-- All edges attached to one node: exact-bin lists then fuzzy-start list. -/
def allEdgesAt {α : Type} (g : Graph α) (n : Nat) : List Edge :=
  ((adjAt g n).flatMap fun kv => kv.2) ++ fuzzyAt g n

theorem adjAt_setAdjAt_self {α : Type} (g : Graph α) (n : Nat)
    (m : List (Nat × List Edge)) (h : n < g.adjacency.length) :
    adjAt (setAdjAt g n m) n = m := by
  simp only [adjAt, setAdjAt]
  exact getD_set_self _ _ _ _ h

theorem adjAt_setAdjAt_ne {α : Type} (g : Graph α) (n n2 : Nat)
    (m : List (Nat × List Edge)) (h : n ≠ n2) :
    adjAt (setAdjAt g n m) n2 = adjAt g n2 := by
  simp only [adjAt, setAdjAt]
  exact getD_set_ne _ _ _ _ _ h

theorem getEdgeAt_setEdgeAt_self {α : Type} (g : Graph α) (loc : EdgeLoc)
    (e x : Edge) (hadj : g.adjacency.length = g.nodes)
    (hfz : g.fuzzy_starts.length = g.nodes) (hnode : locNode loc < g.nodes)
    (hloc : getEdgeAt g loc = some e) :
    getEdgeAt (setEdgeAt g loc x) loc = some x := by
  cases loc with
  | exact n b i =>
      have hn : n < g.adjacency.length := by
        simpa [hadj] using hnode
      simp only [getEdgeAt] at hloc
      obtain ⟨hlt, -⟩ := List.getElem?_eq_some.mp hloc
      simp only [getEdgeAt, setEdgeAt]
      rw [adjAt_setAdjAt_self _ _ _ hn]
      simp only [binGetD]
      rw [binGet_mapSet_self]
      cases hb : binGet (adjAt g n) b with
      | none =>
          exfalso
          rw [binGetD, hb] at hlt
          simp at hlt
      | some v =>
          have hlt2 : i < v.length := by
            rw [binGetD, hb] at hlt
            simpa using hlt
          simp only [Option.map_some', Option.getD_some]
          exact List.getElem?_set_eq_of_lt x hlt2
  | fuzzy n i =>
      have hn : n < g.fuzzy_starts.length := by
        simpa [hfz] using hnode
      simp only [getEdgeAt] at hloc
      obtain ⟨hlt, -⟩ := List.getElem?_eq_some.mp hloc
      simp only [getEdgeAt, setEdgeAt, fuzzyAt]
      rw [getD_set_self _ _ _ _ hn]
      simp only [fuzzyAt] at hlt
      exact List.getElem?_set_eq_of_lt x hlt

theorem getEdgeAt_newNode {α : Type} (g : Graph α) (d : Option α)
    (loc : EdgeLoc) (hnode : locNode loc < g.nodes)
    (hadj : g.adjacency.length = g.nodes)
    (hfz : g.fuzzy_starts.length = g.nodes) :
    getEdgeAt (g.newNode d) loc = getEdgeAt g loc := by
  cases loc with
  | exact n b i =>
      have hn : n < g.adjacency.length := by simpa [hadj] using hnode
      simp only [getEdgeAt, Graph.newNode, adjAt]
      rw [getD_append_lt _ _ _ _ hn]
  | fuzzy n i =>
      have hn : n < g.fuzzy_starts.length := by simpa [hfz] using hnode
      simp only [getEdgeAt, Graph.newNode, fuzzyAt]
      rw [getD_append_lt _ _ _ _ hn]

theorem getEdgeAt_addEdge_ne {α : Type} (g : Graph α) (src dst : Nat)
    (path : Fragment) (ms : Option Nat) (loc : EdgeLoc)
    (h : locNode loc ≠ src) :
    getEdgeAt (g.addEdge src dst path ms) loc = getEdgeAt g loc := by
  cases loc with
  | exact n b i =>
      simp only [locNode] at h
      simp only [Graph.addEdge]
      by_cases hf : path.fuzzAt0
      · simp [hf, getEdgeAt, adjAt]
      · simp only [hf, Bool.false_eq_true, if_false, getEdgeAt]
        rw [adjAt_setAdjAt_ne _ _ _ _ (Ne.symm h)]
  | fuzzy n i =>
      simp only [locNode] at h
      simp only [Graph.addEdge]
      by_cases hf : path.fuzzAt0
      · simp only [hf, if_true, getEdgeAt, fuzzyAt]
        rw [getD_set_ne _ _ _ _ _ (Ne.symm h)]
      · simp [hf, getEdgeAt, fuzzyAt, setAdjAt]

theorem allEdgesAt_setEdgeAt_ne {α : Type} (g : Graph α) (loc : EdgeLoc)
    (x : Edge) (n : Nat) (h : locNode loc ≠ n) :
    allEdgesAt (setEdgeAt g loc x) n = allEdgesAt g n := by
  cases loc with
  | exact n0 b i =>
      simp only [locNode] at h
      simp only [allEdgesAt, setEdgeAt, fuzzyAt]
      rw [adjAt_setAdjAt_ne _ _ _ _ h]
      rfl
  | fuzzy n0 i =>
      simp only [locNode] at h
      simp only [allEdgesAt, setEdgeAt, fuzzyAt, adjAt]
      rw [getD_set_ne _ _ _ _ _ h]

theorem allEdgesAt_addEdge_fresh {α : Type} (g : Graph α) (src dst : Nat)
    (path : Fragment) (ms : Option Nat) (hA : adjAt g src = [])
    (hF : fuzzyAt g src = []) (hsa : src < g.adjacency.length)
    (hsf : src < g.fuzzy_starts.length) :
    allEdgesAt (g.addEdge src dst path ms) src = [Edge.make dst path ms] := by
  simp only [Graph.addEdge]
  by_cases hf : path.fuzzAt0
  · rw [if_pos hf]
    simp only [allEdgesAt]
    have h1 : adjAt { g with fuzzy_starts := g.fuzzy_starts.set src (fuzzyAt g src ++ [Edge.make dst path ms]) } src = adjAt g src := rfl
    have h2 : fuzzyAt { g with fuzzy_starts := g.fuzzy_starts.set src (fuzzyAt g src ++ [Edge.make dst path ms]) } src = fuzzyAt g src ++ [Edge.make dst path ms] := by
      simp only [fuzzyAt]
      exact getD_set_self _ _ _ _ hsf
    rw [h1, hA, h2, hF]
    simp
  · rw [if_neg hf]
    simp only [allEdgesAt]
    have h1 : fuzzyAt (setAdjAt g src (binAppendEdge (adjAt g src) (g.toBin path.head0) (Edge.make dst path ms))) src = fuzzyAt g src := rfl
    rw [h1, hF, adjAt_setAdjAt_self _ _ _ hsa, hA]
    simp [binAppendEdge]

/-! ### C1: edge splitting and `match_size` bookkeeping -/

/-- Inserting `ABCD` then `ABXY` forces a split of the `ABCD` edge at the
common-prefix offset 2. -/
def gSplitEx : Graph Nat :=
  (((Graph.emptyG Nat).insertFrag (litFrag [65, 66, 67, 68]) 0).2.insertFrag
    (litFrag [65, 66, 88, 89]) 1).2

/-- C1 counterexample: after the split at offset `p = 2` of the edge whose
match_size was 4, the prefix edge (root, bin 65) has match_size 2 and the
tail edge (split node 2, bin 67) has match_size 4 — the exact opposite of
the claim, which predicts tail `4 - 2` and prefix `4`. -/
theorem c1_counterexample :
    (getEdgeAt gSplitEx (EdgeLoc.exact 0 65 0)).map Edge.match_size = some 2 ∧
    (getEdgeAt gSplitEx (EdgeLoc.exact 2 67 0)).map Edge.match_size = some 4 ∧
    ¬ ((getEdgeAt gSplitEx (EdgeLoc.exact 2 67 0)).map Edge.match_size =
        some (4 - 2) ∧
       (getEdgeAt gSplitEx (EdgeLoc.exact 0 65 0)).map Edge.match_size =
        some 4) := by
  decide

/-- C1 amended: when `_split_edge` splits the edge `e` at offset `p`, the new
tail edge (from the fresh intermediate node to the original destination)
carries the original `match_size` unreduced, while the prefix edge keeps its
slot with its length field shrunk to `p`, its destination moved to the fresh
node, and its `match_size` reduced by `p`. -/
theorem c1_amended {α : Type} (g : Graph α) (loc : EdgeLoc) (e : Edge)
    (p : Nat) (hadj : g.adjacency.length = g.nodes)
    (hfz : g.fuzzy_starts.length = g.nodes) (hnode : locNode loc < g.nodes)
    (hloc : getEdgeAt g loc = some e) :
    getEdgeAt (g.splitEdge loc e p) loc =
      some { e with path := ⟨e.path.template.take p, e.path.fuzziness.take p⟩,
                    len := p, dst := g.nodes,
                    match_size := e.match_size - p } ∧
    allEdgesAt (g.splitEdge loc e p) g.nodes =
      [Edge.make e.dst ⟨e.path.template.drop p, e.path.fuzziness.drop p⟩
        (some e.match_size)] := by
  have hne : locNode loc ≠ g.nodes := Nat.ne_of_lt hnode
  have hadj1 : (g.newNode (none : Option α)).adjacency.length =
      (g.newNode none).nodes := by
    simp [Graph.newNode, hadj]
  have hfz1 : (g.newNode (none : Option α)).fuzzy_starts.length =
      (g.newNode none).nodes := by
    simp [Graph.newNode, hfz]
  have hnodes1 : (g.newNode (none : Option α)).nodes = g.nodes + 1 := rfl
  constructor
  · simp only [Graph.splitEdge, Fragment.splitAtPos, hnodes1,
      Nat.add_sub_cancel]
    set g1 := g.newNode (none : Option α) with hg1
    set g2 := g1.addEdge g.nodes e.dst
      ⟨e.path.template.drop p, e.path.fuzziness.drop p⟩ (some e.match_size)
      with hg2
    have hloc2 : getEdgeAt g2 loc = some e := by
      rw [hg2, getEdgeAt_addEdge_ne _ _ _ _ _ _ hne, hg1,
        getEdgeAt_newNode _ _ _ hnode hadj hfz, hloc]
    have hadj2 : g2.adjacency.length = g2.nodes := by
      rw [hg2]
      simp only [Graph.addEdge]
      by_cases hf : (Fragment.mk (e.path.template.drop p)
          (e.path.fuzziness.drop p)).fuzzAt0
      · simpa [hf] using hadj1
      · simpa [hf, setAdjAt] using hadj1
    have hfz2 : g2.fuzzy_starts.length = g2.nodes := by
      rw [hg2]
      simp only [Graph.addEdge]
      by_cases hf : (Fragment.mk (e.path.template.drop p)
          (e.path.fuzziness.drop p)).fuzzAt0
      · simpa [hf] using hfz1
      · simpa [hf, setAdjAt] using hfz1
    have hnode2 : locNode loc < g2.nodes := by
      have : g2.nodes = g.nodes + 1 := by
        rw [hg2]
        simp only [Graph.addEdge]
        by_cases hf : (Fragment.mk (e.path.template.drop p)
            (e.path.fuzziness.drop p)).fuzzAt0
        · simp [hf, hg1, Graph.newNode]
        · simp [hf, setAdjAt, hg1, Graph.newNode]
      rw [this]
      exact Nat.lt_succ_of_lt hnode
    exact getEdgeAt_setEdgeAt_self g2 loc e _ hadj2 hfz2 hnode2 hloc2
  · simp only [Graph.splitEdge, Fragment.splitAtPos, hnodes1,
      Nat.add_sub_cancel]
    rw [allEdgesAt_setEdgeAt_ne _ _ _ _ hne]
    have hend : adjAt (g.newNode (none : Option α)) g.nodes = [] := by
      simp only [Graph.newNode, adjAt]
      rw [← hadj, getD_append_self]
    have hendf : fuzzyAt (g.newNode (none : Option α)) g.nodes = [] := by
      simp only [Graph.newNode, fuzzyAt]
      rw [← hfz, getD_append_self]
    refine allEdgesAt_addEdge_fresh _ _ _ _ _ hend hendf ?_ ?_
    · simp [Graph.newNode, hadj]
    · simp [Graph.newNode, hfz]

/-- The graph with just `ABCD` inserted, and its single root edge. -/
def gBaseC1 : Graph Nat :=
  ((Graph.emptyG Nat).insertFrag (litFrag [65, 66, 67, 68]) 0).2

/-- The root edge of `gBaseC1`. -/
def eBaseC1 : Edge := Edge.make 1 (litFrag [65, 66, 67, 68]) none

/-- Witness for the amended C1 at a concrete split. -/
theorem c1_amended_witness :
    (gBaseC1.adjacency.length = gBaseC1.nodes ∧
     gBaseC1.fuzzy_starts.length = gBaseC1.nodes ∧
     locNode (EdgeLoc.exact 0 65 0) < gBaseC1.nodes ∧
     getEdgeAt gBaseC1 (EdgeLoc.exact 0 65 0) = some eBaseC1) ∧
    (getEdgeAt (gBaseC1.splitEdge (EdgeLoc.exact 0 65 0) eBaseC1 2)
        (EdgeLoc.exact 0 65 0) =
      some { eBaseC1 with
        path := ⟨eBaseC1.path.template.take 2, eBaseC1.path.fuzziness.take 2⟩,
        len := 2, dst := gBaseC1.nodes,
        match_size := eBaseC1.match_size - 2 } ∧
     allEdgesAt (gBaseC1.splitEdge (EdgeLoc.exact 0 65 0) eBaseC1 2)
        gBaseC1.nodes =
      [Edge.make eBaseC1.dst ⟨eBaseC1.path.template.drop 2,
        eBaseC1.path.fuzziness.drop 2⟩ (some eBaseC1.match_size)]) :=
  ⟨⟨by decide, by decide, by decide, by decide⟩,
    c1_amended gBaseC1 (EdgeLoc.exact 0 65 0) eBaseC1 2 (by decide) (by decide)
      (by decide) (by decide)⟩

/-! ### C2: the completion-sentinel protocol of the parallel driver -/

/-- A one-signature graph used for the C2 counterexample. -/
def gC2 : Graph Nat := ((Graph.emptyG Nat).insertFrag (litFrag [65, 66]) 0).2

/-- C2 counterexample: a single worker that processes two slices pushes two
completion sentinels, not exactly one. -/
theorem c2_counterexample :
    sentinelCount (workerPuts gC2 [65, 66, 65, 66] [(0, 2), (2, 4)] 2) = 2 ∧
    sentinelCount (workerPuts gC2 [65, 66, 65, 66] [(0, 2), (2, 4)] 2) ≠ 1 := by
  constructor
  · decide
  · decide

theorem sentinelCount_yieldPuts {α : Type} (g : Graph α) (t : List Nat)
    (off al : Nat) : sentinelCount (yieldPuts g t off al) = 1 := by
  simp [sentinelCount, yieldPuts, List.countP_append, List.countP_eq_zero]

theorem mergeLoop_chunk {α : Type} (ys : List (List α × Nat × Nat))
    (work done : Nat) (rest : List (QItem α)) (h : done < work) :
    mergeLoop work done (ys.map some ++ (none :: rest)) =
      (ys ++ (mergeLoop work (done + 1) rest).1,
        (mergeLoop work (done + 1) rest).2) := by
  induction ys with
  | nil => simp [mergeLoop, Nat.not_le_of_lt h]
  | cons y ys ih => simp [mergeLoop, Nat.not_le_of_lt h, ih]

theorem mergeLoop_worker_aux {α : Type} (g : Graph α) (binary : List Nat)
    (align : Nat) (jobs : List (Nat × Nat)) (done : Nat)
    (extra : List (QItem α)) :
    mergeLoop (done + jobs.length) done (workerPuts g binary jobs align ++ extra) =
      ((workerPuts g binary jobs align).filterMap id, extra) := by
  induction jobs generalizing done with
  | nil =>
      cases extra with
      | nil => simp [workerPuts, mergeLoop]
      | cons q rest => simp [workerPuts, mergeLoop]
  | cons j js ih =>
      have hlt : done < done + (j :: js).length := by simp
      have hstep : workerPuts g binary (j :: js) align ++ extra =
          (matchResults g (sliceBytes binary j.1 j.2) j.1 align).map some ++
            (none :: (workerPuts g binary js align ++ extra)) := by
        simp [workerPuts, yieldPuts]
      rw [hstep, mergeLoop_chunk _ _ _ _ hlt]
      have harith : done + (j :: js).length = (done + 1) + js.length := by
        simp [List.length_cons]
        omega
      rw [harith, ih (done + 1)]
      simp [workerPuts, yieldPuts, List.filterMap_append]

/-- C2 amended: one completion sentinel is pushed per *slice* (a worker that
processes `k` slices pushes `k` sentinels), and the driver's merge loop
terminates exactly after receiving one sentinel per slice: fed the puts of
all slices followed by anything else, it yields exactly the matches and
leaves the remainder of the queue unread. -/
theorem c2_amended {α : Type} (g : Graph α) (binary : List Nat)
    (jobs : List (Nat × Nat)) (align : Nat) (extra : List (QItem α)) :
    sentinelCount (workerPuts g binary jobs align) = jobs.length ∧
    mergeLoop jobs.length 0 (workerPuts g binary jobs align ++ extra) =
      ((workerPuts g binary jobs align).filterMap id, extra) := by
  constructor
  · induction jobs with
    | nil => simp [workerPuts, sentinelCount]
    | cons j js ih =>
        simp only [workerPuts, List.flatMap_cons] at *
        simp only [sentinelCount, List.countP_append] at *
        rw [ih]
        have := sentinelCount_yieldPuts g (sliceBytes binary j.1 j.2) j.1 align
        simp only [sentinelCount] at this
        rw [this]
        simp [Nat.add_comm]
  · have := mergeLoop_worker_aux g binary align jobs 0 extra
    simpa using this

/-! ### C5: alignment of the scan -/

/-- A three-byte signature with payload 7. -/
def gC5 : Graph Nat := ((Graph.emptyG Nat).insertFrag (litFrag [65, 66, 67]) 7).2

/-- C5 counterexample: scanning `ABC` with `align=4`, `base_offset=0` yields
a match whose end offset is 3, which is not a multiple of 4. -/
theorem c5_counterexample :
    matchResults gC5 [65, 66, 67] 0 4 = [([7], 3, 3)] ∧
    ¬ (∀ r ∈ matchResults gC5 [65, 66, 67] 0 4, r.2.2 % 4 = 0) := by
  constructor
  · decide
  · decide

/-- After realignment, `pos + offset` is a multiple of `align`. -/
theorem realignPos_aligned (x offset align : Nat) (h : 0 < align) :
    (realignPos x offset align + offset) % align = 0 := by
  simp only [realignPos]
  have halign : (0 : ℤ) < (align : ℤ) := by exact_mod_cast h
  have hnn : 0 ≤ (-(x : ℤ) - (offset : ℤ)) % (align : ℤ) :=
    Int.emod_nonneg _ (by omega)
  have key : ((x : ℤ) + (-(x : ℤ) - (offset : ℤ)) % (align : ℤ) + offset)
      % (align : ℤ) = 0 := by
    have harr : (x : ℤ) + (-(x : ℤ) - (offset : ℤ)) % (align : ℤ) + offset =
        ((x : ℤ) + offset) + (-((x : ℤ) + offset)) % (align : ℤ) := by
      ring_nf
    rw [harr]
    have h1 := Int.emod_add_ediv (-((x : ℤ) + offset)) (align : ℤ)
    have h2 : (x : ℤ) + offset + (-((x : ℤ) + offset)) % (align : ℤ) =
        (align : ℤ) * (-((-((x : ℤ) + offset)) / (align : ℤ))) := by
      have h3 : (-((x : ℤ) + offset)) % (align : ℤ) =
          -((x : ℤ) + offset) - (align : ℤ) * ((-((x : ℤ) + offset)) / (align : ℤ)) := by
        linarith
      rw [h3]
      ring
    rw [h2]
    exact Int.mul_emod_right _ _
  have hcast : ((x + ((-(x : ℤ) - (offset : ℤ)) % (align : ℤ)).toNat + offset : Nat) : ℤ)
      = (x : ℤ) + (-(x : ℤ) - (offset : ℤ)) % (align : ℤ) + offset := by
    push_cast
    omega
  have : ((x + ((-(x : ℤ) - (offset : ℤ)) % (align : ℤ)).toNat + offset : Nat) : ℤ)
      % (align : ℤ) = 0 := by
    rw [hcast]
    exact key
  exact_mod_cast this

/-- Unfolding `matchLoop` when the cursor is inside the target. -/
theorem matchLoop_succ_lt {α : Type} (n : Nat) (g : Graph α)
    (target : List Nat) (offset align pos b : Nat)
    (hb : target[pos]? = some b) (hlt : pos < target.length) :
    matchLoop (n + 1) g target offset align pos =
      (matchLoop n (matchStep g target offset align pos b).2.2 target offset
        align (matchStep g target offset align pos b).2.1).map fun acc =>
          ((matchStep g target offset align pos b).1 ++ acc.1,
            pos :: acc.2.1, acc.2.2) := by
  simp only [matchLoop]
  rw [if_pos hlt, hb]

/-- Unfolding `matchLoop` when the cursor has passed the end. -/
theorem matchLoop_succ_ge {α : Type} (n : Nat) (g : Graph α)
    (target : List Nat) (offset align pos : Nat)
    (hlt : ¬ pos < target.length) :
    matchLoop (n + 1) g target offset align pos = some ([], [], g) := by
  simp only [matchLoop]
  rw [if_neg hlt]

/-- Every iteration hands the loop a realigned position. -/
theorem matchStep_next_realigned {α : Type} (g : Graph α) (target : List Nat)
    (offset align pos b : Nat) :
    ∃ x, (matchStep g target offset align pos b).2.1 =
      realignPos x offset align := by
  simp only [matchStep]
  rcases innerLoop (innerFuelFor (setAdjAt g 0 (binGetM (adjAt g 0) (g.toBin b)).2) target)
      (setAdjAt g 0 (binGetM (adjAt g 0) (g.toBin b)).2) target
      ((((binGetM (adjAt g 0) (g.toBin b)).1.map fun e => (pos, e)) ++
        ((fuzzyAt (setAdjAt g 0 (binGetM (adjAt g 0) (g.toBin b)).2) 0).map
          fun e => (pos, e))).reverse) none with ⟨ly, li, lg⟩
  cases ly with
  | some r => exact ⟨r.2.2, rfl⟩
  | none =>
      cases li with
      | some r => exact ⟨r.2.2, rfl⟩
      | none => exact ⟨pos + 1, rfl⟩

/-- All attempted positions of `matchLoop` are aligned, provided the starting
position is. -/
theorem matchLoop_attempts_aligned {α : Type} (offset align : Nat)
    (h : 0 < align) :
    ∀ (fuel : Nat) (g : Graph α) (target : List Nat) (pos : Nat),
      (pos + offset) % align = 0 →
      ∀ (res : List (List α × Nat × Nat)) (att : List Nat) (g2 : Graph α),
      matchLoop fuel g target offset align pos = some (res, att, g2) →
      ∀ q ∈ att, (q + offset) % align = 0 := by
  intro fuel
  induction fuel with
  | zero =>
      intro g target pos _hpos res att g2 heq q hq
      simp only [matchLoop] at heq
      cases heq
      simp at hq
  | succ n ih =>
      intro g target pos hpos res att g2 heq q hq
      by_cases hlt : pos < target.length
      · have hsome : target[pos]? = some target[pos] :=
          List.getElem?_eq_getElem hlt
        rw [matchLoop_succ_lt n g target offset align pos target[pos]
          hsome hlt] at heq
        cases hrec : matchLoop n (matchStep g target offset align pos
            target[pos]).2.2 target offset align
            (matchStep g target offset align pos target[pos]).2.1 with
        | none => rw [hrec] at heq; simp at heq
        | some acc =>
            rw [hrec] at heq
            simp only [Option.map_some'] at heq
            cases heq
            simp only [List.mem_cons] at hq
            rcases hq with hq | hq
            · exact hq ▸ hpos
            · obtain ⟨x, hx⟩ := matchStep_next_realigned g target offset
                align pos target[pos]
              have halig : ((matchStep g target offset align pos
                  target[pos]).2.1 + offset) % align = 0 := by
                rw [hx]
                exact realignPos_aligned x offset align h
              exact ih _ target _ halig acc.1 acc.2.1 acc.2.2 hrec q hq
      · rw [matchLoop_succ_ge n g target offset align pos hlt] at heq
        cases heq
        simp at hq

/-- C5 amended: with `align=4` and `base_offset=0` the cursor is realigned
after every advance, so every attempted scan position is a multiple of 4;
yielded end offsets are an aligned start plus the match length and need not
be multiples of 4 themselves. -/
theorem c5_amended {α : Type} (g : Graph α) (target : List Nat)
    (res : List (List α × Nat × Nat)) (att : List Nat) (g2 : Graph α)
    (heq : g.matchRun target 0 4 = some (res, att, g2)) :
    ∀ q ∈ att, q % 4 = 0 := by
  intro q hq
  have h4 : (0 : Nat) < 4 := by omega
  have := matchLoop_attempts_aligned 0 4 h4 (target.length + 1) g.finalize
    target 0 (by simp) res att g2 heq q hq
  simpa using this

/-- Witness for the amended C5: a concrete scan whose attempted positions
are all multiples of 4. -/
theorem c5_amended_witness :
    gC5.matchRun [65, 66, 67] 0 4 = some ([([7], 3, 3)], [0], gC5.finalize) ∧
    (∀ q ∈ [0], q % 4 = 0) :=
  ⟨by decide, c5_amended gC5 [65, 66, 67] [([7], 3, 3)] [0] gC5.finalize
    (by decide)⟩

/-! ### C4: what a scan mutates after finalization -/

/-- A tiny finalized graph (a fixed point of `finalize`). -/
def gC4 : Graph Nat :=
  ⟨[(1, [7])], [[(65, [Edge.make 1 (litFrag [65, 66]) none])], []],
    [[], []], 2, 256, 2, true⟩

/-- C4 counterexample: scanning the finalized `gC4` over the single byte 67
materializes an empty bin 67 in the root's defaultdict, so the adjacency
structure after `match` is not identical to the one before. -/
theorem c4_counterexample :
    gC4.finalized = true ∧ gC4.finalize = gC4 ∧
    ¬ (((gC4.matchRun [67] 0 2).map fun x => x.2.2) = some gC4) := by
  refine ⟨rfl, by decide, by decide⟩

/-- Scanning leaves every lookup unchanged: this relation captures what a
scan may do to the graph (materialize empty defaultdict entries only). -/
def LookupEq {α : Type} (g g2 : Graph α) : Prop :=
  g2.nodes = g.nodes ∧ g2.bin_count = g.bin_count ∧
  g2.finalized = g.finalized ∧ g2.longest_path = g.longest_path ∧
  g2.fuzzy_starts = g.fuzzy_starts ∧
  g2.adjacency.length = g.adjacency.length ∧
  (∀ n k, binGetD (adjAt g2 n) k = binGetD (adjAt g n) k) ∧
  (∀ n, dataGetD g2.data n = dataGetD g.data n)

theorem lookupEq_refl {α : Type} (g : Graph α) : LookupEq g g :=
  ⟨rfl, rfl, rfl, rfl, rfl, rfl, fun _ _ => rfl, fun _ => rfl⟩

theorem lookupEq_trans {α : Type} {g1 g2 g3 : Graph α} (h1 : LookupEq g1 g2)
    (h2 : LookupEq g2 g3) : LookupEq g1 g3 := by
  obtain ⟨a1, b1, c1, d1, e1, f1, h1a, h1d⟩ := h1
  obtain ⟨a2, b2, c2, d2, e2, f2, h2a, h2d⟩ := h2
  exact ⟨a2.trans a1, b2.trans b1, c2.trans c1, d2.trans d1, e2.trans e1,
    f2.trans f1, fun n k => (h2a n k).trans (h1a n k),
    fun n => (h2d n).trans (h1d n)⟩

theorem binGetD_append_nil (m : List (Nat × List Edge)) (k n : Nat) :
    binGetD (m ++ [(k, [])]) n = binGetD m n := by
  induction m with
  | nil =>
      by_cases h : k = n
      · simp [binGetD, binGet, h]
      · simp [binGetD, binGet, h]
  | cons kv rest ih =>
      by_cases h : kv.1 = n
      · simp [binGetD, binGet, h]
      · simpa [binGetD, binGet, h] using ih

theorem dataGetD_append_nil {α : Type} (m : List (Nat × List α)) (k n : Nat) :
    dataGetD (m ++ [(k, [])]) n = dataGetD m n := by
  induction m with
  | nil =>
      by_cases h : k = n
      · simp [dataGetD, dataGet, h]
      · simp [dataGetD, dataGet, h]
  | cons kv rest ih =>
      by_cases h : kv.1 = n
      · simp [dataGetD, dataGet, h]
      · simpa [dataGetD, dataGet, h] using ih

theorem binGetD_binGetM (m : List (Nat × List Edge)) (k k2 : Nat) :
    binGetD (binGetM m k).2 k2 = binGetD m k2 := by
  simp only [binGetM]
  cases h : binGet m k with
  | some v => rfl
  | none => exact binGetD_append_nil m k k2

theorem dataGetD_dataGetM {α : Type} (m : List (Nat × List α)) (k k2 : Nat) :
    dataGetD (dataGetM m k).2 k2 = dataGetD m k2 := by
  simp only [dataGetM]
  cases h : dataGet m k with
  | some v => rfl
  | none => exact dataGetD_append_nil m k k2

/-- Materializing a bin at one node preserves every bin lookup. -/
theorem lookupEq_setAdjAt_binGetM {α : Type} (g : Graph α) (n k : Nat) :
    LookupEq g (setAdjAt g n (binGetM (adjAt g n) k).2) := by
  refine ⟨rfl, rfl, rfl, rfl, rfl, by simp [setAdjAt], ?_, fun _ => rfl⟩
  intro n2 k2
  by_cases hn : n2 = n
  · subst hn
    by_cases hlen : n2 < g.adjacency.length
    · rw [adjAt_setAdjAt_self _ _ _ hlen]
      exact binGetD_binGetM _ _ _
    · have hno : adjAt (setAdjAt g n2 (binGetM (adjAt g n2) k).2) n2 =
          adjAt g n2 := by
        simp only [setAdjAt, adjAt]
        rw [List.set_eq_of_length_le (Nat.le_of_not_lt hlen)]
      rw [hno]
  · rw [adjAt_setAdjAt_ne _ _ _ _ (fun h => hn h.symm)]

/-- Materializing a payload entry preserves every lookup. -/
theorem lookupEq_dataGetM {α : Type} (g : Graph α) (k : Nat) :
    LookupEq g { g with data := (dataGetM g.data k).2 } :=
  ⟨rfl, rfl, rfl, rfl, rfl, rfl, fun _ _ => rfl,
    fun n => dataGetD_dataGetM g.data k n⟩

/-- The graph carried by an inner-loop step result. -/
def stepGraph {α : Type} : StepRes α → Graph α
  | StepRes.brk _ _ _ g => g
  | StepRes.cont _ _ g => g

theorem innerStep_lookupEq {α : Type} (g : Graph α) (target : List Nat)
    (p : Nat) (e : Edge) (rest : List (Nat × Edge)) (inter : Inter α) :
    LookupEq g (stepGraph (innerStep g target p e rest inter)) := by
  simp only [innerStep]
  by_cases hm : e.matchesSlice ((target.drop p).take e.len)
  · rw [if_pos hm]
    have h1 : LookupEq g { g with data := (dataGetM g.data e.dst).2 } :=
      lookupEq_dataGetM g e.dst
    set g1 := { g with data := (dataGetM g.data e.dst).2 } with hg1
    have hproceed : ∀ inter2 : Inter α, LookupEq g (stepGraph
        ((fun inter2 => match target[p + e.len]? with
          | none => StepRes.cont rest inter2 g1
          | some b =>
            StepRes.cont
              ((((binGetM (adjAt g1 e.dst) (g1.toBin b)).1 ++
                fuzzyAt (setAdjAt g1 e.dst
                  (binGetM (adjAt g1 e.dst) (g1.toBin b)).2) e.dst).map
                    fun t => (p + e.len, t)).reverse ++ rest) inter2
              (setAdjAt g1 e.dst (binGetM (adjAt g1 e.dst) (g1.toBin b)).2))
          inter2)) := by
      intro inter2
      cases hb : target[p + e.len]? with
      | none => simpa [stepGraph, hb] using h1
      | some b =>
          simp only [hb, stepGraph]
          exact lookupEq_trans h1 (lookupEq_setAdjAt_binGetM g1 e.dst _)
    by_cases hd : (dataGetM g.data e.dst).1.isEmpty
    · simp only [hd, if_pos]
      exact hproceed inter
    · simp only [hd, Bool.false_eq_true, if_false]
      by_cases hleaf : (adjAt g1 e.dst).isEmpty ∧ (fuzzyAt g1 e.dst).isEmpty
      · rw [if_pos hleaf]
        simpa [stepGraph] using h1
      · rw [if_neg hleaf]
        by_cases hrej : interRejects inter e.match_size
        · rw [if_pos hrej]
          simpa [stepGraph] using h1
        · rw [if_neg hrej]
          exact hproceed _
  · rw [if_neg hm]
    exact lookupEq_refl g

theorem innerLoop_lookupEq {α : Type} (target : List Nat) :
    ∀ (fuel : Nat) (g : Graph α) (stack : List (Nat × Edge)) (inter : Inter α),
      LookupEq g (innerLoop fuel g target stack inter).2.2 := by
  intro fuel
  induction fuel with
  | zero => intro g stack inter; exact lookupEq_refl g
  | succ n ih =>
      intro g stack inter
      cases stack with
      | nil => exact lookupEq_refl g
      | cons pe rest =>
          simp only [innerLoop]
          have hstep := innerStep_lookupEq g target pe.1 pe.2 rest inter
          cases hres : innerStep g target pe.1 pe.2 rest inter with
          | brk d ms pe2 g2 =>
              rw [hres] at hstep
              simpa [stepGraph] using hstep
          | cont st i2 g2 =>
              rw [hres] at hstep
              simp only [stepGraph] at hstep
              exact lookupEq_trans hstep (ih g2 st i2)

theorem matchStep_lookupEq {α : Type} (g : Graph α) (target : List Nat)
    (offset align pos b : Nat) :
    LookupEq g (matchStep g target offset align pos b).2.2 := by
  simp only [matchStep]
  have h1 : LookupEq g (setAdjAt g 0 (binGetM (adjAt g 0) (g.toBin b)).2) :=
    lookupEq_setAdjAt_binGetM g 0 (g.toBin b)
  set g1 := setAdjAt g 0 (binGetM (adjAt g 0) (g.toBin b)).2 with hg1
  have h2 := innerLoop_lookupEq target (innerFuelFor g1 target) g1
    ((((binGetM (adjAt g 0) (g.toBin b)).1.map fun e => (pos, e)) ++
      ((fuzzyAt g1 0).map fun e => (pos, e))).reverse) none
  cases hres : innerLoop (innerFuelFor g1 target) g1 target
      ((((binGetM (adjAt g 0) (g.toBin b)).1.map fun e => (pos, e)) ++
        ((fuzzyAt g1 0).map fun e => (pos, e))).reverse) none with
  | mk ly rest2 =>
      obtain ⟨li, lg⟩ := rest2
      rw [hres] at h2
      simp only at h2
      have hcomp := lookupEq_trans h1 h2
      cases ly with
      | some r => simpa [hres] using hcomp
      | none =>
          cases li with
          | some r => simpa [hres] using hcomp
          | none => simpa [hres] using hcomp

theorem matchLoop_lookupEq {α : Type} (target : List Nat)
    (offset align : Nat) :
    ∀ (fuel : Nat) (g : Graph α) (pos : Nat)
      (res : List (List α × Nat × Nat)) (att : List Nat) (g2 : Graph α),
      matchLoop fuel g target offset align pos = some (res, att, g2) →
      LookupEq g g2 := by
  intro fuel
  induction fuel with
  | zero =>
      intro g pos res att g2 heq
      simp only [matchLoop] at heq
      cases heq
      exact lookupEq_refl g
  | succ n ih =>
      intro g pos res att g2 heq
      by_cases hlt : pos < target.length
      · have hsome : target[pos]? = some target[pos] :=
          List.getElem?_eq_getElem hlt
        rw [matchLoop_succ_lt n g target offset align pos target[pos]
          hsome hlt] at heq
        cases hrec : matchLoop n (matchStep g target offset align pos
            target[pos]).2.2 target offset align
            (matchStep g target offset align pos target[pos]).2.1 with
        | none => rw [hrec] at heq; simp at heq
        | some acc =>
            rw [hrec] at heq
            simp only [Option.map_some'] at heq
            cases heq
            exact lookupEq_trans
              (matchStep_lookupEq g target offset align pos target[pos])
              (ih _ _ acc.1 acc.2.1 acc.2.2 hrec)
      · rw [matchLoop_succ_ge n g target offset align pos hlt] at heq
        cases heq
        exact lookupEq_refl g

/-- C4 amended: after `finalize()` has returned, a scan performs no
structural mutation beyond materializing empty defaultdict entries: the node
count, the fuzzy-start lists, every adjacency-bin lookup and every per-node
payload lookup are identical before and after any call to `match`. -/
theorem c4_amended {α : Type} (g : Graph α) (target : List Nat)
    (offset align : Nat) (res : List (List α × Nat × Nat)) (att : List Nat)
    (g2 : Graph α) (hfin : g.finalized = true)
    (heq : g.matchRun target offset align = some (res, att, g2)) :
    g2.nodes = g.nodes ∧ g2.fuzzy_starts = g.fuzzy_starts ∧
    (∀ n k, binGetD (adjAt g2 n) k = binGetD (adjAt g n) k) ∧
    (∀ n, dataGetD g2.data n = dataGetD g.data n) := by
  have hrun : matchLoop (target.length + 1) g target offset align 0 =
      some (res, att, g2) := by
    simpa [Graph.matchRun, finalize_of_finalized g hfin] using heq
  have h := matchLoop_lookupEq target offset align (target.length + 1) g 0
    res att g2 hrun
  exact ⟨h.1, h.2.2.2.2.1, h.2.2.2.2.2.2.1, h.2.2.2.2.2.2.2⟩

/-- The graph `gC4` after scanning the byte 67 (bin 67 materialized). -/
def gC4mut : Graph Nat :=
  ⟨[(1, [7])], [[(65, [Edge.make 1 (litFrag [65, 66]) none]), (67, [])], []],
    [[], []], 2, 256, 2, true⟩

/-- Witness for the amended C4 at a concrete scan. -/
theorem c4_amended_witness :
    (gC4.finalized = true ∧
     gC4.matchRun [67] 0 2 = some ([], [0], gC4mut)) ∧
    (gC4mut.nodes = gC4.nodes ∧ gC4mut.fuzzy_starts = gC4.fuzzy_starts ∧
     (∀ n k, binGetD (adjAt gC4mut n) k = binGetD (adjAt gC4 n) k) ∧
     (∀ n, dataGetD gC4mut.data n = dataGetD gC4.data n)) :=
  ⟨⟨rfl, by decide⟩,
    c4_amended gC4 [67] 0 2 [] [0] gC4mut rfl (by decide)⟩

/-! ### C9: no index error escapes the scan -/

theorem matchLoop_isSome {α : Type} (target : List Nat) (offset align : Nat) :
    ∀ (fuel : Nat) (g : Graph α) (pos : Nat),
      (matchLoop fuel g target offset align pos).isSome := by
  intro fuel
  induction fuel with
  | zero => intro g pos; rfl
  | succ n ih =>
      intro g pos
      by_cases hlt : pos < target.length
      · rw [matchLoop_succ_lt n g target offset align pos target[pos]
          (List.getElem?_eq_getElem hlt) hlt]
        have := ih (matchStep g target offset align pos target[pos]).2.2
          (matchStep g target offset align pos target[pos]).2.1
        cases hres : matchLoop n (matchStep g target offset align pos
            target[pos]).2.2 target offset align
            (matchStep g target offset align pos target[pos]).2.1 with
        | none => rw [hres] at this; cases this
        | some acc => rfl
      · rw [matchLoop_succ_ge n g target offset align pos hlt]; rfl

/-- C9: the scan never propagates an out-of-bounds failure.  First, `match`
always returns to its caller (its only unguarded byte read, `target[pos]` at
the top of the loop, is protected by the `pos < end_pos` condition).  Second,
when the guarded read of the byte past a matched edge is out of range, the
step abandons that extension: it returns a `cont` with the stack unchanged
(no pushes) rather than an error — provided the destination is not an
immediate leaf terminus, in which case no read is attempted at all. -/
theorem c9_no_index_error {α : Type} :
    (∀ (g : Graph α) (target : List Nat) (offset align : Nat),
      (g.matchRun target offset align).isSome) ∧
    (∀ (g : Graph α) (target : List Nat) (p : Nat) (e : Edge)
        (rest : List (Nat × Edge)) (inter : Inter α),
      e.matchesSlice ((target.drop p).take e.len) = true →
      target[p + e.len]? = none →
      ((adjAt g e.dst).isEmpty = true → (fuzzyAt g e.dst).isEmpty = true →
        (dataGetM g.data e.dst).1.isEmpty = true) →
      ∃ inter2, innerStep g target p e rest inter =
        StepRes.cont rest inter2
          { g with data := (dataGetM g.data e.dst).2 }) := by
  constructor
  · intro g target offset align
    exact matchLoop_isSome target offset align (target.length + 1) g.finalize 0
  · intro g target p e rest inter hm hoor hnl
    simp only [innerStep]
    rw [if_pos hm]
    by_cases hd : (dataGetM g.data e.dst).1.isEmpty
    · rw [if_pos hd, hoor]
      exact ⟨inter, rfl⟩
    · rw [if_neg hd]
      have hleaf : ¬ ((adjAt { g with data := (dataGetM g.data e.dst).2 }
          e.dst).isEmpty = true ∧
          (fuzzyAt { g with data := (dataGetM g.data e.dst).2 }
            e.dst).isEmpty = true) := by
        intro hcon
        exact hd (hnl hcon.1 hcon.2)
      rw [if_neg hleaf]
      by_cases hrej : interRejects inter e.match_size
      · rw [if_pos hrej]
        exact ⟨inter, rfl⟩
      · rw [if_neg hrej, hoor]
        exact ⟨some ((dataGetM g.data e.dst).1, e.match_size, p + e.len), rfl⟩

/-- Witness for C9: the totality at a concrete scan, and the out-of-range
abandonment at a concrete configuration. -/
theorem c9_no_index_error_witness :
    ((Graph.emptyG Nat).matchRun [65] 0 2).isSome ∧
    ((Edge.make 5 (litFrag [65]) none).matchesSlice
        ((([65] : List Nat).drop 0).take (Edge.make 5 (litFrag [65]) none).len)
      = true ∧
      ([65] : List Nat)[0 + (Edge.make 5 (litFrag [65]) none).len]? = none) ∧
    (∃ inter2, innerStep (Graph.emptyG Nat) [65] 0
        (Edge.make 5 (litFrag [65]) none) [] none =
      StepRes.cont [] inter2
        { Graph.emptyG Nat with
          data := (dataGetM (Graph.emptyG Nat).data
            (Edge.make 5 (litFrag [65]) none).dst).2 }) :=
  ⟨c9_no_index_error.1 (Graph.emptyG Nat) [65] 0 2,
   ⟨by decide, by decide⟩,
   c9_no_index_error.2 (Graph.emptyG Nat) [65] 0
     (Edge.make 5 (litFrag [65]) none) [] none (by decide) (by decide)
     (by decide)⟩

/-! ### C3: what the scanner pushes after a matched edge -/

/-- Signatures `AB` (payload 10), `ABQXZZ` (payload 11), `?BQ` (payload 12,
wildcard first byte) and `?BQR` (payload 13). -/
def gC3 : Graph Nat :=
  (((((Graph.emptyG Nat).insertFrag (litFrag [65, 66]) 10).2.insertFrag
    (litFrag [65, 66, 81, 88, 90, 90]) 11).2.insertFrag
    ⟨[0, 66, 81], [true, false, false]⟩ 12).2.insertFrag
    ⟨[0, 66, 81, 82], [true, false, false, false]⟩ 13).2

/-- The finalized root edge for `AB` as it is popped during the scan. -/
def eC3 : Edge := { Edge.make 1 (litFrag [65, 66]) none with weight := (6 : ℚ) }

/-- C3 counterexample: scanning `ABQXZZ` pops the fuzzy `?BQ` edge first and
records its terminus (match_size 3) as the intermediate candidate; the `AB`
edge, popped next, reaches a terminus with match_size 2 ≤ 3 and is rejected —
and the `continue` then skips pushing the destination's edges even though the
next byte is in range and the destination has the outgoing edge `QXZZ` that
would have produced the 6-byte leaf match.  The scan therefore yields only
the 3-byte match, and the step equation shows the stack is left unchanged. -/
theorem c3_counterexample :
    matchResults gC3 [65, 66, 81, 88, 90, 90] 0 2 = [([12], 3, 3)] ∧
    (∀ r ∈ matchResults gC3 [65, 66, 81, 88, 90, 90] 0 2, r.1 ≠ [11]) ∧
    innerStep gC3.finalize [65, 66, 81, 88, 90, 90] 0 eC3 []
        (some ([12], 3, 3)) =
      StepRes.cont [] (some ([12], 3, 3))
        { gC3.finalize with
          data := (dataGetM gC3.finalize.data eC3.dst).2 } ∧
    ([65, 66, 81, 88, 90, 90] : List Nat)[0 + eC3.len]? ≠ none ∧
    allEdgesAt gC3.finalize eC3.dst ≠ [] := by
  refine ⟨by decide, by decide, by decide, by decide, by decide⟩

/-- C3 amended: after an edge's fragment matches and its destination is a
terminus with further outgoing edges, the destination's exact-bin and
fuzzy-start edges are pushed whenever a next byte is in range *unless* the
destination was rejected for having match_size not greater than the recorded
intermediate candidate, in which case the `continue` pushes nothing and the
stack is left as it was. -/
theorem c3_amended {α : Type} (g : Graph α) (target : List Nat) (p : Nat)
    (e : Edge) (rest : List (Nat × Edge)) (inter : Inter α)
    (hm : e.matchesSlice ((target.drop p).take e.len) = true)
    (hd : (dataGetM g.data e.dst).1.isEmpty = false)
    (hleaf : ¬ ((adjAt g e.dst).isEmpty = true ∧
      (fuzzyAt g e.dst).isEmpty = true)) :
    (interRejects inter e.match_size = true →
      innerStep g target p e rest inter =
        StepRes.cont rest inter
          { g with data := (dataGetM g.data e.dst).2 }) ∧
    (interRejects inter e.match_size = false →
      ∀ b, target[p + e.len]? = some b →
        innerStep g target p e rest inter =
          StepRes.cont
            ((((binGetM (adjAt g e.dst) (g.toBin b)).1 ++
              fuzzyAt g e.dst).map fun t => (p + e.len, t)).reverse ++ rest)
            (some ((dataGetM g.data e.dst).1, e.match_size, p + e.len))
            (setAdjAt { g with data := (dataGetM g.data e.dst).2 } e.dst
              (binGetM (adjAt g e.dst) (g.toBin b)).2)) := by
  constructor
  · intro hrej
    simp only [innerStep]
    rw [if_pos hm, if_neg (by simpa using hd), if_neg (by simpa using hleaf),
      if_pos hrej]
  · intro hrej b hb
    simp only [innerStep]
    rw [if_pos hm, if_neg (by simpa using hd), if_neg (by simpa using hleaf),
      if_neg (by simp [hrej]), hb]
    rfl

/-- `AB` then `ABCD`: node 1 is a terminus with a further outgoing edge. -/
def gW3 : Graph Nat :=
  (((Graph.emptyG Nat).insertFrag (litFrag [65, 66]) 0).2.insertFrag
    (litFrag [65, 66, 67, 68]) 1).2

/-- The root edge of `gW3`. -/
def eW3 : Edge := Edge.make 1 (litFrag [65, 66]) none

/-- Witness for the amended C3: at a concrete configuration, a rejected
terminus leaves the stack unchanged while an accepted one pushes the
destination's edges. -/
theorem c3_amended_witness :
    (eW3.matchesSlice ((([65, 66, 67, 68] : List Nat).drop 0).take eW3.len) =
      true ∧
     (dataGetM gW3.data eW3.dst).1.isEmpty = false ∧
     ¬ ((adjAt gW3 eW3.dst).isEmpty = true ∧
        (fuzzyAt gW3 eW3.dst).isEmpty = true) ∧
     interRejects (some ([9], 5, 1) : Inter Nat) eW3.match_size = true ∧
     interRejects (none : Inter Nat) eW3.match_size = false ∧
     ([65, 66, 67, 68] : List Nat)[0 + eW3.len]? = some 67) ∧
    innerStep gW3 [65, 66, 67, 68] 0 eW3 [] (some ([9], 5, 1)) =
      StepRes.cont [] (some ([9], 5, 1))
        { gW3 with data := (dataGetM gW3.data eW3.dst).2 } ∧
    innerStep gW3 [65, 66, 67, 68] 0 eW3 [] none =
      StepRes.cont
        ((((binGetM (adjAt gW3 eW3.dst) (gW3.toBin 67)).1 ++
          fuzzyAt gW3 eW3.dst).map fun t => (0 + eW3.len, t)).reverse ++ [])
        (some ((dataGetM gW3.data eW3.dst).1, eW3.match_size, 0 + eW3.len))
        (setAdjAt { gW3 with data := (dataGetM gW3.data eW3.dst).2 } eW3.dst
          (binGetM (adjAt gW3 eW3.dst) (gW3.toBin 67)).2) :=
  ⟨⟨by decide, by decide, by decide, by decide, by decide, by decide⟩,
   (c3_amended gW3 [65, 66, 67, 68] 0 eW3 [] (some ([9], 5, 1)) (by decide)
     (by decide) (by decide)).1 (by decide),
   (c3_amended gW3 [65, 66, 67, 68] 0 eW3 [] none (by decide) (by decide)
     (by decide)).2 (by decide) 67 (by decide)⟩

/-! ### C7: duplicate insertion accumulates payloads -/

theorem lcpAux_self : ∀ (t : List Nat) (z : List Bool),
    z.length = t.length → lcpAux t z t z = t.length := by
  intro t
  induction t with
  | nil => intro z _; cases z <;> rfl
  | cons x xs ih =>
      intro z hz
      cases z with
      | nil => simp at hz
      | cons b bs =>
          simp only [List.length_cons, Nat.succ.injEq] at hz
          simp [lcpAux, ih bs hz]

theorem commonPrefixLen_self (f : Fragment)
    (hwf : f.fuzziness.length = f.template.length) :
    f.commonPrefixLen f = f.size := by
  simp only [Fragment.commonPrefixLen, Fragment.size]
  exact lcpAux_self f.template f.fuzziness hwf

theorem fuzzAt0_lit (f : Fragment)
    (hlit : f.fuzziness = List.replicate f.size false) (hsz : 0 < f.size) :
    f.fuzzAt0 = false := by
  simp only [Fragment.fuzzAt0, hlit]
  cases hs : f.size with
  | zero => omega
  | succ k => simp [List.replicate_succ]

/-- C7: inserting the same literal fragment twice, with payloads `P1` then
`P2`, into the empty graph returns `some true` then `some false`, leaves a
single terminus (node 1) whose payload list is exactly `[P1, P2]`, and no
failure is surfaced (the result of the second insert is an ordinary
`some false`). -/
theorem c7_duplicate_insert {α : Type} (f : Fragment) (P1 P2 : α)
    (hlit : f.fuzziness = List.replicate f.size false) (hsz : 0 < f.size) :
    ((Graph.emptyG α).insertFrag f P1).1 = some true ∧
    (((Graph.emptyG α).insertFrag f P1).2.insertFrag f P2).1 = some false ∧
    dataGetD ((((Graph.emptyG α).insertFrag f P1).2.insertFrag f P2).2).data 1
      = [P1, P2] ∧
    (∀ n, n ≠ 1 →
      dataGetD ((((Graph.emptyG α).insertFrag f P1).2.insertFrag f P2).2).data
        n = []) ∧
    ((((Graph.emptyG α).insertFrag f P1).2.insertFrag f P2).2).nodes = 2 := by
  have hwf : f.fuzziness.length = f.template.length := by
    rw [hlit]
    simp [Fragment.size]
  have hf0 : f.fuzzAt0 = false := fuzzAt0_lit f hlit hsz
  have hne : ¬ f.size = 0 := Nat.pos_iff_ne_zero.mp hsz
  have htne : ¬ f.template = [] := by
    intro h
    apply hne
    simp [Fragment.size, h]
  have hg1 : (Graph.emptyG α).insertFrag f P1 =
      (some true,
        ⟨[(1, [P1])],
         [[(f.head0 % 256, [⟨1, f, f.size, f.size, (f.size : ℚ)⟩])], []],
         [[], []], 0, 256, 2, false⟩) := by
    simp [Graph.insertFrag, insertLoop, hne, htne, hf0, adjAt, setAdjAt,
      Graph.emptyG, binGetM, binGet, findCand, Graph.addEdge, binAppendEdge,
      Graph.newNode, dataAppend, Graph.toBin, Edge.make, fuzzyAt,
      Fragment.size]
  have hcl : (⟨1, f, f.size, f.size, (f.size : ℚ)⟩ : Edge).classify f =
      (PathClassification.EQUAL, f.size) := by
    simp [Edge.classify, commonPrefixLen_self f hwf, Fragment.size]
  have hg2 : (((Graph.emptyG α).insertFrag f P1).2.insertFrag f P2) =
      (some false,
        ⟨[(1, [P1, P2])],
         [[(f.head0 % 256, [⟨1, f, f.size, f.size, (f.size : ℚ)⟩])], []],
         [[], []], 0, 256, 2, false⟩) := by
    rw [hg1]
    simp [Graph.insertFrag, insertLoop, hne, hf0, adjAt, setAdjAt,
      binGetM, binGet, findCand, hcl, dataAppend, Graph.toBin, fuzzyAt]
  refine ⟨by rw [hg1], by rw [hg2], by rw [hg2]; simp [dataGetD, dataGet],
    ?_, by rw [hg2]⟩
  intro n hn
  rw [hg2]
  simp [dataGetD, dataGet, Ne.symm hn]

/-- Witness for C7 at a concrete literal fragment. -/
theorem c7_duplicate_insert_witness :
    ((litFrag [65, 66]).fuzziness =
      List.replicate (litFrag [65, 66]).size false ∧
     0 < (litFrag [65, 66]).size) ∧
    (((Graph.emptyG Nat).insertFrag (litFrag [65, 66]) 3).1 = some true ∧
     (((Graph.emptyG Nat).insertFrag (litFrag [65, 66]) 3).2.insertFrag
        (litFrag [65, 66]) 4).1 = some false ∧
     dataGetD ((((Graph.emptyG Nat).insertFrag (litFrag [65, 66]) 3).2.insertFrag
        (litFrag [65, 66]) 4).2).data 1 = [3, 4] ∧
     (∀ n, n ≠ 1 →
       dataGetD ((((Graph.emptyG Nat).insertFrag (litFrag [65, 66]) 3).2.insertFrag
          (litFrag [65, 66]) 4).2).data n = []) ∧
     ((((Graph.emptyG Nat).insertFrag (litFrag [65, 66]) 3).2.insertFrag
        (litFrag [65, 66]) 4).2).nodes = 2) :=
  ⟨⟨by decide, by decide⟩,
    c7_duplicate_insert (litFrag [65, 66]) 3 4 (by decide) (by decide)⟩

/-! ### C6: longest-match preference for a signature and a strict extension -/

/-- The graph holding the two signatures of a C6 instance: the shorter `s`
with payload `P1`, then its strict extension `e` with payload `P2`. -/
def graphTwo {α : Type} (s e : List Nat) (P1 P2 : α) : Graph α :=
  (((Graph.emptyG α).insertFrag (litFrag s) P1).2.insertFrag (litFrag e) P2).2

/-- `AA` and its extension `AAAA`. -/
def gC6ex : Graph Nat := graphTwo [65, 65] [65, 65, 65, 65] 1 2

/-- C6 counterexample: the buffer of six `A` bytes contains an occurrence of
the longer signature `AAAA` at the aligned position 2, yet the scan yields no
match at all whose start is 2 (the match yielded at position 0 overlaps it
and the cursor jumps past it), so scanning does not yield the longer
signature's match at that start position. -/
theorem c6_counterexample :
    (litFrag [65, 65]).template = (litFrag [65, 65, 65, 65]).template.take 2 ∧
    (([65, 65, 65, 65, 65, 65] : List Nat).drop 2).take 4 = [65, 65, 65, 65] ∧
    2 % 2 = 0 ∧
    matchResults gC6ex [65, 65, 65, 65, 65, 65] 0 2 =
      [([2], 4, 4), ([1], 2, 6)] ∧
    (∀ r ∈ matchResults gC6ex [65, 65, 65, 65, 65, 65] 0 2,
      r.2.2 ≠ 2 + r.2.1) := by
  refine ⟨by decide, by decide, by decide, by decide, by decide⟩

/-! Helper lemmas for the amended C6. -/

theorem binGetM_fst (m : List (Nat × List Edge)) (k : Nat) :
    (binGetM m k).1 = binGetD m k := by
  simp only [binGetM, binGetD]
  cases binGet m k with
  | some v => rfl
  | none => rfl

theorem litFrag_size (bs : List Nat) : (litFrag bs).size = bs.length := rfl

theorem replicate_getD_false (n i : Nat) :
    (List.replicate n false).getD i false = false := by
  by_cases hi : i < n
  · have hlt : i < (List.replicate n false).length := by simpa using hi
    simp [List.getD_eq_getElem?_getD, List.getElem?_eq_getElem hlt]
  · have hge : (List.replicate n false).length ≤ i := by
      simpa using Nat.le_of_not_lt hi
    simp [List.getD_eq_getElem?_getD, List.getElem?_eq_none hge]

theorem litFrag_matchesBytes (x bs : List Nat) :
    (litFrag x).matchesBytes bs = true ↔ bs = x := by
  constructor
  · intro h
    simp only [Fragment.matchesBytes, litFrag, Fragment.size,
      Bool.and_eq_true, beq_iff_eq, List.all_eq_true, List.mem_range] at h
    obtain ⟨hlen, hall⟩ := h
    apply List.ext_getElem (by omega)
    intro i h1 h2
    have hi := hall i (by omega)
    rw [replicate_getD_false] at hi
    simp only [Bool.false_or, beq_iff_eq] at hi
    have hx : x.getD i 0 = x[i] := by
      simp [List.getD_eq_getElem?_getD, List.getElem?_eq_getElem h2]
    have hbs : bs.getD i 0 = bs[i] := by
      simp [List.getD_eq_getElem?_getD, List.getElem?_eq_getElem h1]
    rw [hx, hbs] at hi
    exact hi.symm
  · intro h
    subst h
    simp [Fragment.matchesBytes, litFrag, Fragment.size]

theorem litFrag_drop (bs : List Nat) (k : Nat) :
    (litFrag bs).dropBefore k = litFrag (bs.drop k) := by
  simp [litFrag, Fragment.dropBefore, List.drop_replicate]

theorem litFrag_head0 (bs : List Nat) : (litFrag bs).head0 = bs.headD 0 :=
  rfl

theorem headD_eq_getElem (l : List Nat) (h : 0 < l.length) :
    l.headD 0 = l[0] := by
  cases l with
  | nil => simp at h
  | cons x xs => rfl

theorem lcpAux_lit_prefix :
    ∀ (t2 : List Nat) (k : Nat), k ≤ t2.length →
      lcpAux (t2.take k) (List.replicate k false) t2
        (List.replicate t2.length false) = k := by
  intro t2
  induction t2 with
  | nil =>
      intro k hk
      have hk0 : k = 0 := by simpa using hk
      subst hk0
      rfl
  | cons x xs ih =>
      intro k hk
      cases k with
      | zero => rfl
      | succ m =>
          have hih := ih m (by simpa using hk)
          simp [List.take_succ_cons, List.replicate_succ, List.length_cons,
            lcpAux, hih]

theorem take_headD (e : List Nat) (k : Nat) (hk : 0 < k) :
    (e.take k).headD 0 = e.headD 0 := by
  cases e with
  | nil => simp
  | cons x xs =>
      cases k with
      | zero => omega
      | succ m => rfl

/-- One `insert` iteration that finds no candidate edge: a new leaf. -/
theorem insertLoop_leaf_step {α : Type} (fuel : Nat) (g : Graph α)
    (path : Fragment) (d : α) (ms node : Nat) (hfuel : 0 < fuel)
    (hsz : ¬ path.size = 0) (hf0 : path.fuzzAt0 = false)
    (hbin : binGet (adjAt g node) (g.toBin path.head0) = none) :
    insertLoop fuel g path d ms node =
      (some true,
        ((setAdjAt g node ((adjAt g node) ++ [(g.toBin path.head0, [])])).addEdge
          node (setAdjAt g node ((adjAt g node) ++
            [(g.toBin path.head0, [])])).nodes path (some ms)).newNode
          (some d)) := by
  cases fuel with
  | zero => omega
  | succ m =>
      simp [insertLoop, hsz, hf0, hbin, findCand]

/-- One `insert` iteration that classifies the single candidate edge as
`PART`: descend. -/
theorem insertLoop_part_step {α : Type} (fuel : Nat) (g : Graph α)
    (path : Fragment) (d : α) (ms node pl : Nat) (e2 : Edge)
    (hfuel : 0 < fuel) (hsz : ¬ path.size = 0) (hf0 : path.fuzzAt0 = false)
    (hbin : binGet (adjAt g node) (g.toBin path.head0) = some [e2])
    (hcl : e2.classify path = (PathClassification.PART, pl)) :
    insertLoop fuel g path d ms node =
      insertLoop (fuel - 1) g (path.dropBefore pl) d ms e2.dst := by
  cases fuel with
  | zero => omega
  | succ m =>
      simp [insertLoop, hsz, hf0, hbin, findCand, hcl]

/-- The root edge for the shorter signature. -/
def edgeA (s : List Nat) : Edge :=
  ⟨1, litFrag s, s.length, s.length, (s.length : ℚ)⟩

/-- The continuation edge for the longer signature. -/
def edgeB (s e : List Nat) : Edge :=
  ⟨2, litFrag (e.drop s.length), e.length - s.length, e.length,
    (e.length : ℚ)⟩

theorem graphTwo_eq {α : Type} (s e : List Nat) (P1 P2 : α)
    (hs : 0 < s.length) (hse : s.length < e.length)
    (hpre : s = e.take s.length) :
    graphTwo s e P1 P2 =
      ⟨[(1, [P1]), (2, [P2])],
       [[(s.headD 0 % 256, [edgeA s])],
        [((e.drop s.length).headD 0 % 256, [edgeB s e])], []],
       [[], [], []], 0, 256, 3, false⟩ := by
  have hlitS : (litFrag s).fuzziness = List.replicate (litFrag s).size false :=
    rfl
  have hszS : 0 < (litFrag s).size := by simpa [litFrag_size] using hs
  have hf0S : (litFrag s).fuzzAt0 = false := fuzzAt0_lit _ hlitS hszS
  have hneS : ¬ (litFrag s).size = 0 := by omega
  have hszE : 0 < (litFrag e).size := by
    simp only [litFrag_size]
    omega
  have hf0E : (litFrag e).fuzzAt0 = false :=
    fuzzAt0_lit _ rfl hszE
  have hneE : ¬ (litFrag e).size = 0 := by omega
  have hheads : e.headD 0 = s.headD 0 := by
    rw [hpre, take_headD e s.length hs]
  have hheads2 : e.head?.getD 0 = s.head?.getD 0 := by
    simpa using hheads
  have hsnil : ¬ s = [] := by
    intro h
    rw [h] at hs
    simp at hs
  have hsl : ¬ s.length = 0 := by omega
  have hg1 : (Graph.emptyG α).insertFrag (litFrag s) P1 =
      (some true,
        ⟨[(1, [P1])], [[(s.headD 0 % 256, [edgeA s])], []], [[], []],
          0, 256, 2, false⟩) := by
    simp [Graph.insertFrag, insertLoop, hsl, hsnil, hf0S, litFrag_size,
      litFrag_head0, adjAt, setAdjAt, Graph.emptyG, binGet, findCand,
      Graph.addEdge, binAppendEdge, Graph.newNode, dataAppend, Graph.toBin,
      Edge.make, fuzzyAt, edgeA]
  have hlcp : (litFrag s).commonPrefixLen (litFrag e) = s.length := by
    have hlt : (List.take s.length e).length = s.length := by
      rw [List.length_take]
      omega
    simp only [Fragment.commonPrefixLen, litFrag]
    conv_lhs => rw [hpre]
    rw [hlt]
    exact lcpAux_lit_prefix e s.length (Nat.le_of_lt hse)
  have hcl : (edgeA s).classify (litFrag e) =
      (PathClassification.PART, s.length) := by
    simp only [Edge.classify, edgeA, litFrag_size]
    rw [hlcp]
    rw [if_pos rfl]
    rw [if_neg (show ¬ e.length = s.length by omega)]
  simp only [graphTwo]
  rw [hg1]
  have hstep1 : (⟨[(1, [P1])], [[(s.headD 0 % 256, [edgeA s])], []],
      [[], []], 0, 256, 2, false⟩ : Graph α).insertFrag (litFrag e) P2 =
      insertLoop ((litFrag e).size + 1 - 1)
        ⟨[(1, [P1])], [[(s.headD 0 % 256, [edgeA s])], []], [[], []],
          0, 256, 2, false⟩
        ((litFrag e).dropBefore s.length) P2 (litFrag e).size (edgeA s).dst := by
    simp only [Graph.insertFrag]
    exact insertLoop_part_step ((litFrag e).size + 1) _ (litFrag e) P2
      (litFrag e).size 0 s.length (edgeA s) (by omega) hneE hf0E
      (by simp [adjAt, binGet, Graph.toBin, litFrag_head0, hheads2])
      hcl
  rw [hstep1]
  have hdrop : (litFrag e).dropBefore s.length = litFrag (e.drop s.length) :=
    litFrag_drop e s.length
  have hszD : ¬ (litFrag (e.drop s.length)).size = 0 := by
    simp only [litFrag_size, List.length_drop]
    omega
  have hf0D : (litFrag (e.drop s.length)).fuzzAt0 = false := by
    refine fuzzAt0_lit _ rfl ?_
    simp only [litFrag_size, List.length_drop]
    omega
  rw [hdrop]
  have hstep2 := insertLoop_leaf_step ((litFrag e).size + 1 - 1)
    (⟨[(1, [P1])], [[(s.headD 0 % 256, [edgeA s])], []], [[], []],
      0, 256, 2, false⟩ : Graph α)
    (litFrag (e.drop s.length)) P2 (litFrag e).size (edgeA s).dst
    (by simp [litFrag_size]; omega) hszD hf0D
    (by simp [edgeA, adjAt, binGet])
  rw [hstep2]
  have hf0D2 : (⟨List.drop s.length e,
      List.replicate (e.length - s.length) false⟩ : Fragment).fuzzAt0 =
      false := by
    have hl : e.length - s.length = (List.drop s.length e).length := by simp
    rw [hl]
    exact hf0D
  simp [setAdjAt, Graph.addEdge, hf0D, hf0D2, adjAt, Graph.toBin,
    binAppendEdge, Graph.newNode, dataAppend, Edge.make, edgeA, edgeB,
    litFrag_size, Fragment.size, Fragment.head0, litFrag, fuzzyAt]

/-- The root edge after finalization (weight overwritten by the match-size
pass). -/
def edgeA2 (s e : List Nat) : Edge :=
  ⟨1, litFrag s, s.length, s.length, (e.length : ℚ)⟩

/-- The continuation edge after finalization. -/
def edgeB2 (s e : List Nat) : Edge :=
  ⟨2, litFrag (e.drop s.length), e.length - s.length, e.length,
    (e.length : ℚ)⟩

theorem graphTwo_finalize {α : Type} (s e : List Nat) (P1 P2 : α)
    (hs : 0 < s.length) (hse : s.length < e.length)
    (hpre : s = e.take s.length) :
    (graphTwo s e P1 P2).finalize =
      ⟨[(1, [P1]), (2, [P2])],
       [[(s.headD 0 % 256, [edgeA2 s e])],
        [((e.drop s.length).headD 0 % 256, [edgeB2 s e])], []],
       [[], [], []], e.length, 256, 3, true⟩ := by
  rw [graphTwo_eq s e P1 P2 hs hse hpre]
  have hmax : max e.length s.length = e.length := by omega
  simp [Graph.finalize, getMeanFuzz, getMaxMS, sortEdgesByWeight, stableSort,
    insSorted, edgeLocsAt, setEdgeAt, adjAt, setAdjAt, fuzzyAt, weightedMean,
    edgeA, edgeB, edgeA2, edgeB2, hmax, List.enum]
  omega

/-! Case equations for one pop of the inner loop. -/

theorem innerStep_mismatch {α : Type} (g : Graph α) (t : List Nat) (p : Nat)
    (e : Edge) (rest : List (Nat × Edge)) (inter : Inter α)
    (hm : e.matchesSlice ((t.drop p).take e.len) = false) :
    innerStep g t p e rest inter = StepRes.cont rest inter g := by
  simp [innerStep, hm]

theorem innerStep_leaf {α : Type} (g : Graph α) (t : List Nat) (p : Nat)
    (e : Edge) (rest : List (Nat × Edge)) (inter : Inter α)
    (hm : e.matchesSlice ((t.drop p).take e.len) = true)
    (hd : (dataGetM g.data e.dst).1.isEmpty = false)
    (ha : (adjAt g e.dst).isEmpty = true)
    (hf : (fuzzyAt g e.dst).isEmpty = true) :
    innerStep g t p e rest inter =
      StepRes.brk (dataGetM g.data e.dst).1 e.match_size (p + e.len)
        { g with data := (dataGetM g.data e.dst).2 } := by
  simp only [innerStep]
  rw [if_pos hm, if_neg (by simp [hd]), if_pos (by exact ⟨ha, hf⟩)]

theorem innerStep_accept_none {α : Type} (g : Graph α) (t : List Nat)
    (p : Nat) (e : Edge) (rest : List (Nat × Edge)) (inter : Inter α)
    (hm : e.matchesSlice ((t.drop p).take e.len) = true)
    (hd : (dataGetM g.data e.dst).1.isEmpty = false)
    (hnl : ¬ ((adjAt g e.dst).isEmpty = true ∧
      (fuzzyAt g e.dst).isEmpty = true))
    (hrej : interRejects inter e.match_size = false)
    (hoor : t[p + e.len]? = none) :
    innerStep g t p e rest inter =
      StepRes.cont rest
        (some ((dataGetM g.data e.dst).1, e.match_size, p + e.len))
        { g with data := (dataGetM g.data e.dst).2 } := by
  simp only [innerStep]
  rw [if_pos hm, if_neg (by simp [hd]), if_neg (by simpa using hnl),
    if_neg (by simp [hrej]), hoor]

theorem innerStep_accept_some {α : Type} (g : Graph α) (t : List Nat)
    (p : Nat) (e : Edge) (rest : List (Nat × Edge)) (inter : Inter α)
    (b : Nat) (hm : e.matchesSlice ((t.drop p).take e.len) = true)
    (hd : (dataGetM g.data e.dst).1.isEmpty = false)
    (hnl : ¬ ((adjAt g e.dst).isEmpty = true ∧
      (fuzzyAt g e.dst).isEmpty = true))
    (hrej : interRejects inter e.match_size = false)
    (hb : t[p + e.len]? = some b) :
    innerStep g t p e rest inter =
      StepRes.cont
        ((((binGetM (adjAt g e.dst) (g.toBin b)).1 ++
          fuzzyAt g e.dst).map fun t2 => (p + e.len, t2)).reverse ++ rest)
        (some ((dataGetM g.data e.dst).1, e.match_size, p + e.len))
        (setAdjAt { g with data := (dataGetM g.data e.dst).2 } e.dst
          (binGetM (adjAt g e.dst) (g.toBin b)).2) := by
  simp only [innerStep]
  rw [if_pos hm, if_neg (by simp [hd]), if_neg (by simpa using hnl),
    if_neg (by simp [hrej]), hb]
  rfl

/-- The loop invariant for the two-signature automaton of C6: everything the
scanner reads is pinned, up to edge weights and materialized empty bins;
node 2 stays an untouched leaf. -/
def InvC6 {α : Type} (s e : List Nat) (P1 P2 : α) (g2 : Graph α) : Prop :=
  g2.bin_count = 256 ∧ g2.nodes = 3 ∧
  g2.fuzzy_starts = [[], [], []] ∧
  dataGet g2.data 1 = some [P1] ∧
  dataGet g2.data 2 = some [P2] ∧
  (∃ w, ∀ b, binGetD (adjAt g2 0) b =
    if b = s.headD 0 % 256 then [⟨1, litFrag s, s.length, s.length, w⟩]
    else []) ∧
  (∃ w, ∀ b, binGetD (adjAt g2 1) b =
    if b = (e.drop s.length).headD 0 % 256 then
      [⟨2, litFrag (e.drop s.length), e.length - s.length, e.length, w⟩]
    else []) ∧
  adjAt g2 1 ≠ [] ∧ adjAt g2 2 = []

theorem binGetD_singleton (k b : Nat) (v : List Edge) :
    binGetD [(k, v)] b = if b = k then v else [] := by
  by_cases h : k = b
  · simp [binGetD, binGet, h]
  · rw [if_neg (fun h2 => h h2.symm)]
    simp [binGetD, binGet, h]

theorem invC6_shape {α : Type} (s e : List Nat) (P1 P2 : α) (w1 w2 : ℚ)
    (L : Nat) (fin : Bool) :
    InvC6 s e P1 P2
      ⟨[(1, [P1]), (2, [P2])],
       [[(s.headD 0 % 256, [⟨1, litFrag s, s.length, s.length, w1⟩])],
        [((e.drop s.length).headD 0 % 256,
          [⟨2, litFrag (e.drop s.length), e.length - s.length, e.length,
            w2⟩])], []],
       [[], [], []], L, 256, 3, fin⟩ := by
  refine ⟨rfl, rfl, rfl, by simp [dataGet], by simp [dataGet],
    ⟨w1, ?_⟩, ⟨w2, ?_⟩, by simp [adjAt], by simp [adjAt]⟩
  · intro b
    exact binGetD_singleton _ b _
  · intro b
    exact binGetD_singleton _ b _

theorem invC6_finalize {α : Type} (s e : List Nat) (P1 P2 : α)
    (hs : 0 < s.length) (hse : s.length < e.length)
    (hpre : s = e.take s.length) :
    InvC6 s e P1 P2 (graphTwo s e P1 P2).finalize := by
  rw [graphTwo_finalize s e P1 P2 hs hse hpre]
  exact invC6_shape s e P1 P2 (e.length : ℚ) (e.length : ℚ) e.length true

theorem binGetM_snd_ne_nil (m : List (Nat × List Edge)) (k : Nat) :
    (binGetM m k).2 ≠ [] := by
  simp only [binGetM]
  cases h : binGet m k with
  | some v =>
      cases m with
      | nil => simp [binGet] at h
      | cons kv rest => simp
  | none => simp

theorem dataGetM_of_get {α : Type} (m : List (Nat × List α)) (k : Nat)
    (v : List α) (h : dataGet m k = some v) : dataGetM m k = (v, m) := by
  simp [dataGetM, h]

theorem fuzzy3_getD (i : Nat) :
    ([[], [], []] : List (List Edge)).getD i [] = [] := by
  match i with
  | 0 => rfl
  | 1 => rfl
  | 2 => rfl
  | n + 3 => rfl

theorem invC6_materialize {α : Type} (s e : List Nat) (P1 P2 : α)
    (g2 : Graph α) (node k : Nat) (hInv : InvC6 s e P1 P2 g2)
    (hnode : node = 0 ∨ node = 1) :
    InvC6 s e P1 P2 (setAdjAt g2 node (binGetM (adjAt g2 node) k).2) := by
  obtain ⟨hbc, hn, hfz, hd1, hd2, ⟨w1, hw1⟩, ⟨w2, hw2⟩, h1ne, h2nil⟩ := hInv
  have hlook := (lookupEq_setAdjAt_binGetM g2 node k).2.2.2.2.2.2.1
  refine ⟨hbc, hn, hfz, hd1, hd2, ⟨w1, fun b => (hlook 0 b).trans (hw1 b)⟩,
    ⟨w2, fun b => (hlook 1 b).trans (hw2 b)⟩, ?_, ?_⟩
  · rcases hnode with h0 | h1
    · subst h0
      rw [adjAt_setAdjAt_ne _ _ _ _ (by omega)]
      exact h1ne
    · subst h1
      by_cases hlen : (1 : Nat) < g2.adjacency.length
      · rw [adjAt_setAdjAt_self _ _ _ hlen]
        exact binGetM_snd_ne_nil _ _
      · have : adjAt (setAdjAt g2 1 (binGetM (adjAt g2 1) k).2) 1 =
            adjAt g2 1 := by
          simp only [setAdjAt, adjAt]
          rw [List.set_eq_of_length_le (Nat.le_of_not_lt hlen)]
        rw [this]
        exact h1ne
  · rcases hnode with h0 | h1
    · subst h0
      rw [adjAt_setAdjAt_ne _ _ _ _ (by omega)]
      exact h2nil
    · subst h1
      rw [adjAt_setAdjAt_ne _ _ _ _ (by omega)]
      exact h2nil

theorem innerLoop_nil {α : Type} (fuel : Nat) (g : Graph α) (t : List Nat)
    (inter : Inter α) : innerLoop fuel g t [] inter = (none, inter, g) := by
  cases fuel with
  | zero => rfl
  | succ m => rfl

theorem innerLoop_cons_cont {α : Type} (fuel : Nat) (g : Graph α)
    (t : List Nat) (p : Nat) (e2 : Edge) (rest st : List (Nat × Edge))
    (inter i2 : Inter α) (gg : Graph α) (h : 0 < fuel)
    (hstep : innerStep g t p e2 rest inter = StepRes.cont st i2 gg) :
    innerLoop fuel g t ((p, e2) :: rest) inter =
      innerLoop (fuel - 1) gg t st i2 := by
  cases fuel with
  | zero => omega
  | succ m => simp [innerLoop, hstep]

theorem innerLoop_cons_brk {α : Type} (fuel : Nat) (g : Graph α)
    (t : List Nat) (p : Nat) (e2 : Edge) (rest : List (Nat × Edge))
    (inter : Inter α) (d : List α) (ms pe : Nat) (gg : Graph α)
    (h : 0 < fuel)
    (hstep : innerStep g t p e2 rest inter = StepRes.brk d ms pe gg) :
    innerLoop fuel g t ((p, e2) :: rest) inter =
      (some (d, ms, pe), inter, gg) := by
  cases fuel with
  | zero => omega
  | succ m => simp [innerLoop, hstep]

theorem occ_bound (t e : List Nat) (q : Nat) (hepos : 0 < e.length)
    (h : (t.drop q).take e.length = e) : q + e.length ≤ t.length := by
  have hlen := congrArg List.length h
  simp only [List.length_take, List.length_drop] at hlen
  omega

theorem occ_sliceA (t s e : List Nat) (q : Nat) (hse : s.length < e.length)
    (hpre : s = e.take s.length) (h : (t.drop q).take e.length = e) :
    (t.drop q).take s.length = s := by
  have hmin : min s.length e.length = s.length := by omega
  conv_rhs => rw [hpre, ← h]
  rw [List.take_take, hmin]

theorem occ_sliceB (t s e : List Nat) (q : Nat)
    (h : (t.drop q).take e.length = e) :
    (t.drop (q + s.length)).take (e.length - s.length) =
      e.drop s.length := by
  conv_rhs => rw [← h]
  rw [List.drop_take]
  rw [List.drop_drop]

theorem occ_getElem (t e : List Nat) (q i : Nat) (hi : i < e.length)
    (h : (t.drop q).take e.length = e) : t[q + i]? = e[i]? := by
  conv_rhs => rw [← h]
  rw [List.getElem?_take_of_lt hi, List.getElem?_drop]

theorem drop_headD_getElem (e : List Nat) (k : Nat) (hk : k < e.length) :
    (e.drop k).headD 0 = e[k] := by
  have hlen : 0 < (e.drop k).length := by
    simp only [List.length_drop]
    omega
  rw [headD_eq_getElem _ hlen]
  rw [List.getElem_drop]
  simp

theorem occ_of_slices (t s e : List Nat) (q : Nat) (hse : s.length ≤ e.length)
    (hpre : s = e.take s.length) (hA : (t.drop q).take s.length = s)
    (hB : (t.drop (q + s.length)).take (e.length - s.length) =
      e.drop s.length) : (t.drop q).take e.length = e := by
  have hn : e.length = s.length + (e.length - s.length) := by omega
  rw [hn, List.take_add]
  rw [hA]
  rw [List.drop_drop]
  rw [hB]
  nth_rewrite 1 [hpre]
  exact List.take_append_drop _ _

/-- Analysis of one seeded exploration of the two-signature automaton: the
inner loop either finds nothing, yields the long match as an immediate leaf
(exactly when the long signature occurs at `pos`), or flushes the short
intermediate candidate (exactly when the long signature does not occur at
`pos`); the graph keeps the invariant throughout. -/
theorem innerC6 {α : Type} (s e t : List Nat) (P1 P2 : α) (w1 : ℚ)
    (pos fuel : Nat) (g1 : Graph α) (hs : 0 < s.length)
    (hse : s.length < e.length) (hpre : s = e.take s.length)
    (hInv : InvC6 s e P1 P2 g1) (hfuel : 3 ≤ fuel) :
    ∃ res : Option (List α × Nat × Nat) × Inter α × Graph α,
      innerLoop fuel g1 t
        [(pos, ⟨1, litFrag s, s.length, s.length, w1⟩)] none = res ∧
      InvC6 s e P1 P2 res.2.2 ∧
      ((res.1 = none ∧ res.2.1 = none) ∨
       (res.1 = some ([P2], e.length, pos + e.length) ∧
         (t.drop pos).take e.length = e) ∨
       (res.1 = none ∧
         res.2.1 = some ([P1], s.length, pos + s.length) ∧
         ¬ (t.drop pos).take e.length = e)) := by
  obtain ⟨hbc, hn3, hfz, hd1, hd2, ⟨w1g, hw1⟩, ⟨w2, hw2⟩, h1ne, h2nil⟩ := hInv
  have hInvG : InvC6 s e P1 P2 g1 :=
    ⟨hbc, hn3, hfz, hd1, hd2, ⟨w1g, hw1⟩, ⟨w2, hw2⟩, h1ne, h2nil⟩
  have hfzAt : ∀ i, fuzzyAt g1 i = [] := by
    intro i
    simp only [fuzzyAt, hfz]
    exact fuzzy3_getD i
  have hd1M : dataGetM g1.data 1 = ([P1], g1.data) :=
    dataGetM_of_get _ _ _ hd1
  set A : Edge := ⟨1, litFrag s, s.length, s.length, w1⟩ with hA_def
  set B : Edge := ⟨2, litFrag (e.drop s.length), e.length - s.length,
    e.length, w2⟩ with hB_def
  by_cases hA : A.matchesSlice ((t.drop pos).take s.length) = true
  · -- the short edge matches at pos
    have hAs : (t.drop pos).take s.length = s :=
      (litFrag_matchesBytes s ((t.drop pos).take s.length)).mp hA
    have hnl : ¬ ((adjAt g1 A.dst).isEmpty = true ∧
        (fuzzyAt g1 A.dst).isEmpty = true) := by
      intro hcon
      exact h1ne (by simpa using hcon.1)
    have hrej : interRejects (none : Inter α) A.match_size = false := rfl
    have hd1MA : dataGetM g1.data A.dst = ([P1], g1.data) := hd1M
    have hdfalse : (dataGetM g1.data A.dst).1.isEmpty = false := by
      rw [hd1MA]
      rfl
    have hG1eta : ({ g1 with data := (dataGetM g1.data A.dst).2 } :
        Graph α) = g1 := by
      rw [hd1MA]
    have hP1 : (dataGetM g1.data A.dst).1 = [P1] := by rw [hd1MA]
    cases hc : t[pos + s.length]? with
    | none =>
        have hstep := innerStep_accept_none g1 t pos A [] none hA hdfalse
          hnl hrej hc
        rw [hG1eta, hP1] at hstep
        refine ⟨(none, some ([P1], s.length, pos + s.length), g1), ?_,
          hInvG, Or.inr (Or.inr ⟨rfl, rfl, ?_⟩)⟩
        · rw [innerLoop_cons_cont fuel g1 t pos A [] [] none _ g1
            (by omega) hstep]
          exact innerLoop_nil _ _ _ _
        · intro hocc
          have hb2 := occ_bound t e pos (by omega) hocc
          have hlt : pos + s.length < t.length := by omega
          rw [List.getElem?_eq_getElem hlt] at hc
          cases hc
    | some c =>
        have hstep := innerStep_accept_some g1 t pos A [] none c hA hdfalse
          hnl hrej hc
        rw [hG1eta, hP1] at hstep
        have htb : g1.toBin c = c % 256 := by rw [Graph.toBin, hbc]
        rw [htb] at hstep
        have hfz1A : fuzzyAt g1 A.dst = [] := hfzAt 1
        rw [hfz1A] at hstep
        have hInv3 : InvC6 s e P1 P2
            (setAdjAt g1 A.dst (binGetM (adjAt g1 A.dst) (c % 256)).2) :=
          invC6_materialize s e P1 P2 g1 A.dst (c % 256) hInvG (Or.inr rfl)
        by_cases hcb : c % 256 = (e.drop s.length).headD 0 % 256
        · -- the continuation edge is seeded
          have hbinc : (binGetM (adjAt g1 A.dst) (c % 256)).1 = [B] := by
            rw [binGetM_fst]
            exact (hw2 (c % 256)).trans (if_pos hcb)
          rw [hbinc] at hstep
          simp only [List.append_nil, List.map_cons, List.map_nil,
            List.reverse_cons, List.reverse_nil, List.nil_append] at hstep
          set g3 := setAdjAt g1 A.dst (binGetM (adjAt g1 A.dst) (c % 256)).2
            with hg3
          obtain ⟨hbc3, hn33, hfz3, hd13, hd23, hlook03, hlook13, h1ne3,
            h2nil3⟩ := hInv3
          have hInv3G : InvC6 s e P1 P2 g3 :=
            ⟨hbc3, hn33, hfz3, hd13, hd23, hlook03, hlook13, h1ne3, h2nil3⟩
          have hd2M3 : dataGetM g3.data B.dst = ([P2], g3.data) :=
            dataGetM_of_get _ _ _ hd23
          have h1 := innerLoop_cons_cont fuel g1 t pos A []
            [(pos + A.len, B)] none
            (some ([P1], A.match_size, pos + A.len)) g3
            (by omega) hstep
          by_cases hB2 : B.matchesSlice
              ((t.drop (pos + s.length)).take (e.length - s.length)) = true
          · -- immediate leaf: the long match
            have hBs : (t.drop (pos + s.length)).take (e.length - s.length) =
                e.drop s.length :=
              (litFrag_matchesBytes _ _).mp hB2
            have hocc : (t.drop pos).take e.length = e :=
              occ_of_slices t s e pos (Nat.le_of_lt hse) hpre hAs hBs
            have hdf3 : (dataGetM g3.data B.dst).1.isEmpty = false := by
              rw [hd2M3]
              rfl
            have ha3 : (adjAt g3 B.dst).isEmpty = true := by
              have : adjAt g3 B.dst = [] := h2nil3
              rw [this]
              rfl
            have hf3 : (fuzzyAt g3 B.dst).isEmpty = true := by
              have : fuzzyAt g3 B.dst = [] := by
                simp only [fuzzyAt, hfz3]
                exact fuzzy3_getD 2
              rw [this]
              rfl
            have hstep2 := innerStep_leaf g3 t (pos + A.len) B []
              (some ([P1], A.match_size, pos + A.len)) hB2 hdf3 ha3 hf3
            have hG3eta : ({ g3 with data := (dataGetM g3.data B.dst).2 } :
                Graph α) = g3 := by
              rw [hd2M3]
            have hP2 : (dataGetM g3.data B.dst).1 = [P2] := by rw [hd2M3]
            rw [hG3eta, hP2] at hstep2
            have h2 := innerLoop_cons_brk (fuel - 1) g3 t (pos + A.len) B []
              (some ([P1], A.match_size, pos + A.len)) [P2] B.match_size
              (pos + A.len + B.len) g3 (by omega) hstep2
            have hend : pos + A.len + B.len = pos + e.length := by
              simp only [hA_def, hB_def]
              omega
            refine ⟨(some ([P2], e.length, pos + e.length),
              some ([P1], A.match_size, pos + A.len), g3), ?_, hInv3G,
              Or.inr (Or.inl ⟨rfl, hocc⟩)⟩
            rw [h1, h2, hend]
          · -- the continuation edge mismatches: flush the short candidate
            have hB2f : B.matchesSlice
                ((t.drop (pos + A.len)).take B.len) = false := by
              simpa using hB2
            have hstep2 := innerStep_mismatch g3 t (pos + A.len) B []
              (some ([P1], A.match_size, pos + A.len)) hB2f
            have h2 := innerLoop_cons_cont (fuel - 1) g3 t (pos + A.len) B
              [] [] (some ([P1], A.match_size, pos + A.len))
              (some ([P1], A.match_size, pos + A.len)) g3 (by omega) hstep2
            refine ⟨(none, some ([P1], s.length, pos + s.length), g3), ?_,
              hInv3G, Or.inr (Or.inr ⟨rfl, rfl, ?_⟩)⟩
            · rw [h1, h2]
              exact innerLoop_nil _ _ _ _
            · intro hocc
              have hBs : (t.drop (pos + s.length)).take
                  (e.length - s.length) = e.drop s.length :=
                occ_sliceB t s e pos hocc
              exact hB2 ((litFrag_matchesBytes _ _).mpr hBs)
        · -- next byte falls outside the continuation bin: flush
          have hbinc : (binGetM (adjAt g1 A.dst) (c % 256)).1 = [] := by
            rw [binGetM_fst]
            exact (hw2 (c % 256)).trans (if_neg hcb)
          rw [hbinc] at hstep
          simp only [List.nil_append, List.map_nil, List.reverse_nil,
            List.append_nil] at hstep
          have h1 := innerLoop_cons_cont fuel g1 t pos A [] [] none
            (some ([P1], A.match_size, pos + A.len))
            (setAdjAt g1 A.dst (binGetM (adjAt g1 A.dst) (c % 256)).2)
            (by omega) hstep
          refine ⟨(none, some ([P1], s.length, pos + s.length),
            setAdjAt g1 A.dst (binGetM (adjAt g1 A.dst) (c % 256)).2), ?_,
            hInv3, Or.inr (Or.inr ⟨rfl, rfl, ?_⟩)⟩
          · rw [h1]
            exact innerLoop_nil _ _ _ _
          · intro hocc
            have hbyte := occ_getElem t e pos s.length hse hocc
            rw [hc] at hbyte
            have hk : e[s.length]? = some e[s.length] :=
              List.getElem?_eq_getElem hse
            rw [hk] at hbyte
            cases hbyte
            exact hcb (by rw [drop_headD_getElem e s.length hse])
  · -- the short edge does not match at pos: nothing found
    have hA2 : A.matchesSlice ((t.drop pos).take A.len) = false := by
      simpa using hA
    have hstep := innerStep_mismatch g1 t pos A [] none hA2
    refine ⟨(none, none, g1), ?_, hInvG, Or.inl ⟨rfl, rfl⟩⟩
    rw [innerLoop_cons_cont fuel g1 t pos A [] [] none none g1 (by omega)
      hstep]
    exact innerLoop_nil _ _ _ _

/-- One outer iteration on a graph satisfying the two-signature invariant:
any yield of the iteration is either the long match at the cursor (exactly
when the long signature occurs there) or the flushed short candidate (exactly
when it does not); the invariant is preserved. -/
theorem matchStepC6 {α : Type} (s e target : List Nat) (P1 P2 : α)
    (offset align pos b : Nat) (g : Graph α) (hs : 0 < s.length)
    (hse : s.length < e.length) (hpre : s = e.take s.length)
    (hInv : InvC6 s e P1 P2 g) :
    ∃ st : List (List α × Nat × Nat) × Nat × Graph α,
      matchStep g target offset align pos b = st ∧
      InvC6 s e P1 P2 st.2.2 ∧
      ∀ r ∈ st.1,
        (r = ([P2], e.length, pos + e.length + offset) ∧
          (target.drop pos).take e.length = e) ∨
        (r = ([P1], s.length, pos + s.length + offset) ∧
          ¬ (target.drop pos).take e.length = e) := by
  obtain ⟨hbc, hn3, hfz, hd1, hd2, ⟨w1g, hw1⟩, hw2ex, h1ne, h2nil⟩ := hInv
  have hInvG : InvC6 s e P1 P2 g :=
    ⟨hbc, hn3, hfz, hd1, hd2, ⟨w1g, hw1⟩, hw2ex, h1ne, h2nil⟩
  have htb : g.toBin b = b % 256 := by rw [Graph.toBin, hbc]
  have hInv1 : InvC6 s e P1 P2
      (setAdjAt g 0 (binGetM (adjAt g 0) (b % 256)).2) :=
    invC6_materialize s e P1 P2 g 0 (b % 256) hInvG (Or.inl rfl)
  have hfzAt1 : fuzzyAt (setAdjAt g 0 (binGetM (adjAt g 0) (b % 256)).2)
      0 = [] := by
    simp only [fuzzyAt]
    rw [hInv1.2.2.1]
    exact fuzzy3_getD 0
  have hbin : (binGetM (adjAt g 0) (b % 256)).1 =
      if b % 256 = s.headD 0 % 256 then
        [⟨1, litFrag s, s.length, s.length, w1g⟩] else [] := by
    rw [binGetM_fst]
    exact hw1 _
  by_cases hcase : b % 256 = s.headD 0 % 256
  · have hfuel : 3 ≤ innerFuelFor
        (setAdjAt g 0 (binGetM (adjAt g 0) (b % 256)).2) target := by
      simp only [innerFuelFor]
      rw [hInv1.2.1]
      omega
    obtain ⟨⟨ry, ri, rg⟩, hres, hresInv, hdisj⟩ :=
      innerC6 s e target P1 P2 w1g pos
        (innerFuelFor (setAdjAt g 0 (binGetM (adjAt g 0) (b % 256)).2)
          target)
        (setAdjAt g 0 (binGetM (adjAt g 0) (b % 256)).2)
        hs hse hpre hInv1 hfuel
    have heq0 : matchStep g target offset align pos b =
        match (ry, ri, rg) with
        | (some r, _, g2) =>
            ([(r.1, r.2.1, r.2.2 + offset)], realignPos r.2.2 offset align,
              g2)
        | (none, some r, g2) =>
            ([(r.1, r.2.1, r.2.2 + offset)], realignPos r.2.2 offset align,
              g2)
        | (none, none, g2) => ([], realignPos (pos + 1) offset align, g2) := by
      simp only [matchStep]
      rw [htb, hbin, if_pos hcase, hfzAt1]
      simp only [List.map_cons, List.map_nil, List.append_nil,
        List.reverse_cons, List.reverse_nil, List.nil_append]
      rw [hres]
    rcases hdisj with ⟨h1, h2⟩ | ⟨h1, hocc⟩ | ⟨h1, h2, hnocc⟩
    · simp only at h1 h2
      subst h1
      subst h2
      exact ⟨([], realignPos (pos + 1) offset align, rg), heq0, hresInv,
        by intro r hr; simp at hr⟩
    · simp only at h1
      subst h1
      refine ⟨([([P2], e.length, pos + e.length + offset)],
        realignPos (pos + e.length) offset align, rg), heq0, hresInv, ?_⟩
      intro r hr
      simp only [List.mem_singleton] at hr
      exact Or.inl ⟨hr, hocc⟩
    · simp only at h1 h2
      subst h1
      subst h2
      refine ⟨([([P1], s.length, pos + s.length + offset)],
        realignPos (pos + s.length) offset align, rg), heq0, hresInv, ?_⟩
      intro r hr
      simp only [List.mem_singleton] at hr
      exact Or.inr ⟨hr, hnocc⟩
  · refine ⟨([], realignPos (pos + 1) offset align,
      setAdjAt g 0 (binGetM (adjAt g 0) (b % 256)).2), ?_, hInv1,
      by intro r hr; simp at hr⟩
    simp only [matchStep]
    rw [htb, hbin, if_neg hcase, hfzAt1]
    simp only [List.map_nil, List.nil_append, List.reverse_nil]
    rw [innerLoop_nil]

/-- Loop induction for C6: every result yielded over a whole scan of a
two-signature graph is, for some attempted cursor position `p`, either the
long match with an occurrence at `p` or the flushed short candidate with no
occurrence at `p`. -/
theorem matchLoopC6 {α : Type} (s e target : List Nat) (P1 P2 : α)
    (offset align : Nat) (hs : 0 < s.length) (hse : s.length < e.length)
    (hpre : s = e.take s.length) :
    ∀ (fuel : Nat) (g : Graph α) (pos : Nat), InvC6 s e P1 P2 g →
      ∀ out, matchLoop fuel g target offset align pos = some out →
        ∀ r ∈ out.1, ∃ p,
          (r = ([P2], e.length, p + e.length + offset) ∧
            (target.drop p).take e.length = e) ∨
          (r = ([P1], s.length, p + s.length + offset) ∧
            ¬ (target.drop p).take e.length = e) := by
  intro fuel
  induction fuel with
  | zero =>
      intro g pos hInv out hout r hr
      simp only [matchLoop] at hout
      injection hout with h
      subst h
      simp at hr
  | succ n ih =>
      intro g pos hInv out hout r hr
      by_cases hlt : pos < target.length
      · have hb : target[pos]? = some target[pos] :=
          List.getElem?_eq_getElem hlt
        rw [matchLoop_succ_lt n g target offset align pos target[pos] hb
          hlt] at hout
        obtain ⟨st, hst, hInv2, hyields⟩ := matchStepC6 s e target P1 P2
          offset align pos target[pos] g hs hse hpre hInv
        rw [hst] at hout
        cases hrec : matchLoop n st.2.2 target offset align st.2.1 with
        | none => rw [hrec] at hout; cases hout
        | some acc =>
            rw [hrec] at hout
            have hout2 : some ((st.1 ++ acc.1, pos :: acc.2.1, acc.2.2) :
                List (List α × Nat × Nat) × List Nat × Graph α) =
                some out := hout
            injection hout2 with h3
            subst h3
            have hr2 : r ∈ st.1 ++ acc.1 := hr
            rw [List.mem_append] at hr2
            rcases hr2 with hin | hin
            · exact ⟨pos, hyields r hin⟩
            · exact ih st.2.2 st.2.1 hInv2 acc hrec r hin
      · rw [matchLoop_succ_ge n g target offset align pos hlt] at hout
        injection hout with h
        subst h
        simp at hr

/-- C6: if the shorter signature is a strict literal prefix of the longer
and the target holds an occurrence of the longer sequence at position `q`,
then every match the scan yields whose start position is `q` is the longer
signature's match (payload of node 2, match size the full length); the
shorter signature is never independently yielded at that start.  (The
original claim is refuted by `c6_counterexample`: the longer match itself
can fail to be yielded at `q` when an earlier overlapping match advances
the cursor past `q`.) -/
theorem c6_amended {α : Type} (s e target : List Nat) (P1 P2 : α)
    (offset align q : Nat) (hs : 0 < s.length) (hse : s.length < e.length)
    (hpre : s = e.take s.length)
    (hocc : (target.drop q).take e.length = e) :
    ∀ r ∈ matchResults (graphTwo s e P1 P2) target offset align,
      r.2.2 = offset + q + r.2.1 → r.1 = [P2] ∧ r.2.1 = e.length := by
  intro r hr hend
  have hInv0 : InvC6 s e P1 P2 (graphTwo s e P1 P2).finalize :=
    invC6_finalize s e P1 P2 hs hse hpre
  cases hrun : (graphTwo s e P1 P2).matchRun target offset align with
  | none =>
      have hsome := matchLoop_isSome target offset align
        (target.length + 1) (graphTwo s e P1 P2).finalize 0
      have hrun2 : matchLoop (target.length + 1)
          (graphTwo s e P1 P2).finalize target offset align 0 = none := hrun
      rw [hrun2] at hsome
      cases hsome
  | some out =>
      have hr2 : r ∈ out.1 := by
        simp only [matchResults] at hr
        rw [hrun] at hr
        exact hr
      have hloop : matchLoop (target.length + 1)
          (graphTwo s e P1 P2).finalize target offset align 0 = some out :=
        hrun
      obtain ⟨p, hcase⟩ := matchLoopC6 s e target P1 P2 offset align hs hse
        hpre (target.length + 1) _ 0 hInv0 out hloop r hr2
      rcases hcase with ⟨he1, hocc2⟩ | ⟨he1, hnocc⟩
      · subst he1
        exact ⟨rfl, rfl⟩
      · exfalso
        subst he1
        simp only at hend
        have hpq : p = q := by omega
        exact hnocc (hpq ▸ hocc)

/-- Witness for the amended C6, on the counterexample scan: the one result
whose start position is the occurrence start 0 is the longer signature's
match `([2], 4, 4)`. -/
theorem c6_amended_witness :
    (([2], 4, 4) : List Nat × Nat × Nat).1 = [2] ∧
    (([2], 4, 4) : List Nat × Nat × Nat).2.1 = 4 :=
  c6_amended [65, 65] [65, 65, 65, 65] [65, 65, 65, 65, 65, 65] 1 2 0 2 0
    (by decide) (by decide) (by decide) (by decide)
    ([2], 4, 4) (by decide) (by decide)

end Polypyus
